import Mathlib

/-
Verification of the NEAT engine core (crate `neat`).

Shallow embedding conventions:
* `f32` values are modelled as real numbers (`ℝ`); rounding is not modelled.
  The file `individual/genome/aggregation.rs` is additionally embedded over an
  IEEE-flavoured value type `F32` (with NaN and infinities) because the claim
  about it concerns NaN.
* `Ratio<usize>` levels are modelled as `ℚ` (exact rational arithmetic).
* Code that can panic (`unwrap`, `expect`, `todo!`, out-of-bounds indexing,
  `assert!`) is modelled in the `Option` monad, `none` meaning a panic.
* The RNG (`rand::RngCore`) is modelled by explicit oracles: a structure that
  fixes, ahead of time, every draw the code will make.  All theorems either
  quantify over the oracle or instantiate it concretely.
-/

namespace Neat

/-! ## Scalar functions: `Activation`, `Aggregation`, `Clamp`
From `src/neat/src/individual/genome/node_list.rs` (the copy used by the
network lives in `network/mem_cell.rs` and is textually identical). -/

/-- Error function, as provided by the `errorfunctions` crate
(used by the `Gelu` activation). -/
noncomputable def erf (x : ℝ) : ℝ :=
  (2 / Real.sqrt Real.pi) * ∫ t in (0:ℝ)..x, Real.exp (-(t ^ 2))

/-- Aggregation variants (`node_list.rs` / `mem_cell.rs`). `Mean` is the
`#[default]` variant. -/
inductive Aggregation where
  | Sum
  | Max
  | Mean
  | L1NormAvg
  | L2NormAvg
deriving DecidableEq, Repr

/-- Activation variants (`node_list.rs` / `mem_cell.rs`). `Relu` is the
`#[default]` variant. -/
inductive Activation where
  | Abs
  | Cube
  | Exp
  | Gauss
  | Hat
  | Identity
  | Inv
  | Log
  | Relu
  | Selu (alpha lambda : ℝ)
  | Sigmoid
  | Sin
  | Tanh
  | Softplus (beta : ℝ)
  | Gelu
  | Root

/-- Clamp bounds (`node_list.rs` / `mem_cell.rs` / `clamp.rs`). -/
structure Clamp where
  min_limit : Option ℝ
  max_limit : Option ℝ

/-- Default clamp, from `clamp.rs` (`MIN_CLAMP = -5.`, `MAX_CLAMP = 5.`);
this is also the clamp `MemoryCell::default` builds explicitly. -/
def Clamp.default : Clamp := ⟨some (-5), some 5⟩

/-- `impl Activate for Activation` (`node_list.rs`, identical in
`mem_cell.rs`). -/
noncomputable def Activation.activate : Activation → ℝ → ℝ
  | .Abs, input => |input|
  | .Cube, input => input * input * input
  | .Exp, input => Real.exp input
  | .Gauss, input => Real.exp (-(input * input))
  | .Hat, input => max (1 - |input|) 0
  | .Identity, input => input
  | .Inv, input => 1 / Real.sqrt (input * input + 1)
  | .Log, input => Real.log |input|
  | .Relu, input => max input 0
  | .Selu a l, input => if input > 0 then l * input else l * a * (Real.exp input - 1)
  | .Sigmoid, input => 1 / (1 + Real.exp (-input))
  | .Sin, input => Real.sin input
  | .Tanh, input => Real.tanh input
  | .Softplus b, input => b⁻¹ * Real.log (1 + Real.exp (input * b))
  | .Gelu, input => (erf (input / Real.sqrt 2) + 1) * 0.5 * input
  | .Root, input => Real.sqrt (input * input + 1)

/-- `impl Activate for Clamp` (`node_list.rs` / `mem_cell.rs`): clip to
whichever bounds are set, max bound first. -/
def Clamp.activate (c : Clamp) (input : ℝ) : ℝ :=
  let i1 := match c.max_limit with
    | some m => min input m
    | none => input
  match c.min_limit with
    | some m => max i1 m
    | none => i1

/-- `Aggregation::apply` over ℝ (`node_list.rs` / `mem_cell.rs`).  The list is
the iterator's contents in order.  Real division by zero is `0` in Lean; the
NaN-producing empty-`Mean` behaviour is treated separately for the standalone
`aggregation.rs` module below.  (`L2NormAvg` on an empty iterator panics in the
source; no network claim reaches that branch, the value here is junk.) -/
noncomputable def Aggregation.apply : Aggregation → List ℝ → ℝ
  | .Sum, l => l.foldl (· + ·) 0
  | .Max, l => match l with
      | [] => 0
      | x :: xs => xs.foldl max x
  | .Mean, l =>
      let p := l.foldl (fun (ac : ℝ × ℕ) x => (ac.1 + x, ac.2 + 1)) (0, 0)
      p.1 / (p.2 : ℝ)
  | .L2NormAvg, l => match l with
      | [] => 0
      | x :: xs =>
        let alpha := xs.foldl (fun a b => max |a| |b|) x
        Real.sqrt ((x :: xs).foldl (fun acc y => acc + (y / alpha) * (y / alpha)) 0)
          * alpha / ((x :: xs).length : ℝ)
  | .L1NormAvg, l =>
      let p := l.foldl (fun (ac : ℝ × ℕ) x => (ac.1 + |x|, ac.2 + 1)) (0, 0)
      p.1 / (p.2 : ℝ)

/-! ## Data model: `Node`, `Config`, `GenomeEdge`, lists
From `individual/genome/node_list.rs` and `individual/genome/genome.rs`. -/

/-- Per-node configuration (aggregation, clamp, activation). -/
structure Config where
  aggregation : Aggregation
  clamp : Clamp
  activation : Activation

/-- A node: stable id, exact rational level, configuration. -/
structure Node where
  node_id : ℕ
  config : Config
  level : ℚ

/-- A genome edge (gene): innovation number, endpoints, weight, enabled flag.
`Ord` on edges in the source compares `innov_number` alone. -/
structure GenomeEdge where
  innov_number : ℕ
  in_node : ℕ
  out_node : ℕ
  weight : ℝ
  enabled : Bool

/-- `NodeList`: input, output and hidden node collections. -/
structure NodeList where
  input : List Node
  output : List Node
  hidden : List Node

/-- `OrderedGenomeList`: edge list kept sorted by innovation number. -/
structure OrderedGenomeList where
  edge_list : List GenomeEdge

/-- A genome: node list plus ordered edge list. -/
structure Genome where
  node_list : NodeList
  genome_list : OrderedGenomeList

/-! ## Memory cells
From `src/neat/src/individual/genome/network/mem_cell.rs`. -/

/-- Evaluation state of a non-input node.  The first field is called
`node_id` in the source even though it holds the whole `Node`. -/
structure MemoryCell where
  node_id : Node
  current : ℝ
  prev : ℝ
  bias : ℝ
  current_data : List ℝ
  aggregation : Aggregation
  clamp : Clamp
  activation : Activation
  activated : Bool
  passed : Bool

/-- `MemoryCell::new`. -/
def MemoryCell.new (node : Node) (bias : ℝ) (aggregation : Aggregation)
    (clamp : Clamp) (activation : Activation) : MemoryCell :=
  { node_id := node, current := 0, prev := 0, bias := bias, current_data := []
    aggregation := aggregation, clamp := clamp, activation := activation
    activated := false, passed := false }

/-- `MemoryCell::default`: zero bias, `Mean` aggregation, clamp `[-5, 5]`,
`Relu` activation — regardless of the node's own `config`. -/
def MemoryCell.default (node : Node) : MemoryCell :=
  MemoryCell.new node 0 .Mean ⟨some (-5), some 5⟩ .Relu

/-- `MemoryCell::activate`: aggregation over pending data plus bias, then
activation, then clamp; shift `current` into `prev`, clear pending data and
stamp `activated` with the pass flag. -/
noncomputable def MemoryCell.activate (c : MemoryCell) (pass_flag : Bool) : MemoryCell :=
  let agg_data := c.aggregation.apply c.current_data + c.bias
  let current := c.clamp.activate (c.activation.activate agg_data)
  { c with prev := c.current, current := current
           activated := pass_flag, current_data := [] }

/-- `MemoryCell::get_current_output`: fresh iff `activated` equals the pass
flag. -/
def MemoryCell.get_current_output (c : MemoryCell) (pass_flag : Bool) : Option ℝ :=
  if c.activated = pass_flag then some c.current else none

/-- `MemoryCell::get_previous_output`. -/
def MemoryCell.get_previous_output (c : MemoryCell) (pass_flag : Bool) : ℝ :=
  if c.activated = pass_flag then c.prev else c.current

/-- `MemoryCell::append_input`. -/
def MemoryCell.append_input (c : MemoryCell) (input : ℝ) : MemoryCell :=
  { c with current_data := c.current_data ++ [input] }

/-- `MemoryCellType`: an input slot or an activation cell. -/
inductive MemoryCellType where
  | Input (node_id : Node) (cell_value : ℝ)
  | Activation (cell : MemoryCell)

/-- `MemoryCellType::get_id` (the network calls it `get_node`); returns the
stored `Node`. -/
def MemoryCellType.get_node : MemoryCellType → Node
  | .Input n _ => n
  | .Activation c => c.node_id

/-- `MemoryCellType::was_not_passed_set`: report whether the cell had not yet
been scheduled this pass, stamping `passed` on activation cells. -/
def MemoryCellType.was_not_passed_set : MemoryCellType → Bool → Bool × MemoryCellType
  | .Input n v, _ => (true, .Input n v)
  | .Activation c, p => (c.passed != p, .Activation { c with passed := p })

/-- `MemoryCellType::propagate_input`: overwrite an input slot, append to an
activation cell's pending data. -/
def MemoryCellType.propagate_input : MemoryCellType → ℝ → MemoryCellType
  | .Input n _, input => .Input n input
  | .Activation c, input => .Activation (c.append_input input)

/-- `MemoryCellType::activate` (no-op on input slots). -/
noncomputable def MemoryCellType.activate : MemoryCellType → Bool → MemoryCellType
  | .Activation c, p => .Activation (c.activate p)
  | .Input n v, _ => .Input n v

/-- `MemoryCellType::get_previous_output`. -/
def MemoryCellType.get_previous_output : MemoryCellType → Bool → ℝ
  | .Input _ v, _ => v
  | .Activation c, p => c.get_previous_output p

/-- `MemoryCellType::get_current_output`. -/
def MemoryCellType.get_current_output : MemoryCellType → Bool → Option ℝ
  | .Input _ v, _ => some v
  | .Activation c, p => c.get_current_output p

/-! ## The network
From `src/neat/src/individual/genome/network/network.rs`. -/

/-- Adjacency entry (`Edge` in `network.rs`). -/
structure Edge where
  dest : ℕ
  weight : ℝ

/-- Cached lengths of the three node groups. -/
structure Lengths where
  input : ℕ
  output : ℕ
  hidden : ℕ
deriving DecidableEq, Repr

/-- `slice::binary_search_by_key`, by halving, on an arbitrary key; the fuel
only bounds the recursion depth (each step strictly shrinks the slice, so
`l.length` fuel always suffices). -/
def bsearchGo {α : Type} (key : α → ℕ) : ℕ → List α → ℕ → Option ℕ
  | 0, _, _ => none
  | fuel + 1, l, t =>
    match l.get? (l.length / 2) with
    | none => none
    | some a =>
      if key a = t then some (l.length / 2)
      else if key a < t then
        (bsearchGo key fuel (l.drop (l.length / 2 + 1)) t).map
          (fun i => l.length / 2 + 1 + i)
      else bsearchGo key fuel (l.take (l.length / 2)) t

/-- Binary search over the whole list.  Returns `none` when the key is absent
(the callers `.expect`, i.e. panic). -/
def bsearchBy {α : Type} (key : α → ℕ) (l : List α) (t : ℕ) : Option ℕ :=
  bsearchGo key l.length l t

/-- `get_mem_location`: index of the cell whose node id is `item`
(`none` models the `expect` panic). -/
def get_mem_location (memory : List MemoryCellType) (item : ℕ) : Option ℕ :=
  bsearchBy (fun cell => cell.get_node.node_id) memory item

/-- Bounds-checked list update; `none` models Rust's panic on an
out-of-range index. -/
def setAt {α : Type} (l : List α) (i : ℕ) (x : α) : Option (List α) :=
  if i < l.length then some (l.set i x) else none

/-- The network: flat memory, pass flag, forward and back adjacency, lengths. -/
structure FFNetwork where
  memory : List MemoryCellType
  pass : Bool
  edge_map : List (List Edge)
  back_map : List (List Edge)
  lengths : Lengths

/-- `FFNetwork::new`: memory is inputs then outputs then hidden wrapped in
cells (every activation cell built by `MemoryCell::default`), stably sorted by
node id; enabled edges are split into the forward map (source level strictly
below destination) and the back map (otherwise), back edges indexed by the
destination's hidden position.  `none` models the panics (absent node id,
back-map index out of range). -/
def FFNetwork.new (node_list : NodeList) (genome_list : List GenomeEdge) :
    Option FFNetwork := do
  let memory := (node_list.input.map (fun c => MemoryCellType.Input c 0) ++
      (node_list.output ++ node_list.hidden).map
        (fun c => MemoryCellType.Activation (MemoryCell.default c))).insertionSort
      (fun a b => a.get_node.node_id ≤ b.get_node.node_id)
  let nio := node_list.input.length + node_list.output.length
  let maps ← (genome_list.filter (·.enabled)).foldlM
    (fun (maps : List (List Edge) × List (List Edge)) e => do
      let in_index ← get_mem_location memory e.in_node
      let out_index ← get_mem_location memory e.out_node
      let in_el ← memory.get? in_index
      let out_el ← memory.get? out_index
      if out_el.get_node.level ≤ in_el.get_node.level then
        if out_index < nio then none
        else do
          let cur ← maps.2.get? (out_index - nio)
          let bm ← setAt maps.2 (out_index - nio) (cur ++ [⟨e.in_node, e.weight⟩])
          pure (maps.1, bm)
      else do
        let cur ← maps.1.get? in_index
        let em ← setAt maps.1 in_index (cur ++ [⟨e.out_node, e.weight⟩])
        pure (em, maps.2))
    (memory.map (fun _ => []), List.replicate node_list.hidden.length [])
  pure { memory := memory, pass := false, edge_map := maps.1, back_map := maps.2
         lengths := ⟨node_list.input.length, node_list.output.length,
                     node_list.hidden.length⟩ }

/-- Heap order seen by `BinaryHeap<Reverse<Node>>`: the source's `Ord` on
`Node` compares levels only; ties are broken here by node id to make the pop
deterministic (no claim depends on the tie order). -/
def nodeLe (a b : Node) : Bool := a.level < b.level || (a.level == b.level && a.node_id ≤ b.node_id)

/-- Pop a minimal node from the worklist. -/
def popMin : List Node → Option (Node × List Node)
  | [] => none
  | n :: ns =>
    match popMin ns with
    | none => some (n, [])
    | some (m, rest) => if nodeLe n m then some (n, ns) else some (m, n :: rest)

/-- The body of `FFNetwork::forward`'s scheduling loop, fuelled (the Rust
`while let` terminates because forward edges strictly increase levels; fuel
exhaustion is mapped to `none` and never occurs in the runs proved about). -/
noncomputable def runLoop (edge_map back_map : List (List Edge)) (lengths : Lengths)
    (pass : Bool) :
    ℕ → List MemoryCellType → List Node → Option (List MemoryCellType)
  | 0, _, _ => none
  | fuel + 1, memory, queue =>
    match popMin queue with
    | none => some memory
    | some (head, queue') => do
      let head_idx ← get_mem_location memory head.node_id
      let memory ←
        if lengths.input + lengths.output ≤ head.node_id then do
          -- `translate_hidden` is applied to the memory *index*, as in the source
          let th ← get_mem_location memory head_idx
          if th < lengths.input + lengths.output then none
          else do
            let backs ← back_map.get? (th - (lengths.input + lengths.output))
            backs.foldlM (fun mem (v : Edge) => do
              let index ← get_mem_location mem v.dest
              let vcell ← mem.get? index
              let inp := vcell.get_previous_output pass
              let hcell ← mem.get? head_idx
              setAt mem head_idx (hcell.propagate_input (inp * v.weight))) memory
        else pure memory
      let hcell ← memory.get? head_idx
      let memory ← setAt memory head_idx (hcell.activate pass)
      let edges ← edge_map.get? head_idx
      let st ← edges.foldlM
        (fun (st : List MemoryCellType × List Node) (e : Edge) => do
          let index ← get_mem_location st.1 e.dest
          let hc ← st.1.get? head_idx
          let input ← hc.get_current_output pass
          let dcell ← st.1.get? index
          let mem ← setAt st.1 index (dcell.propagate_input (input * e.weight))
          let dcell2 ← mem.get? index
          let pr := dcell2.was_not_passed_set pass
          let mem ← setAt mem index pr.2
          let q := if pr.1 then st.2 ++ [pr.2.get_node] else st.2
          pure (mem, q))
        (memory, queue')
      runLoop edge_map back_map lengths pass fuel st.1 st.2

/-- Write the input vector into the first `lengths.input` memory slots
(`zip_eq`; `none` models the panic when the memory is too short). -/
def writeInputs : List MemoryCellType → List ℝ → Option (List MemoryCellType)
  | mem, [] => some mem
  | [], _ :: _ => none
  | c :: mem, v :: vs => (writeInputs mem vs).map (c.propagate_input v :: ·)

/-- `FFNetwork::forward`.  The outer `Option` models panics; the inner one is
the source's return value (`None` = `InvalidInputSize`).  The pass flag flips
before the length check, exactly as in the source. -/
noncomputable def FFNetwork.forward (net : FFNetwork) (input_vector : List ℝ) :
    Option (Option (List ℝ) × FFNetwork) :=
  let pass := !net.pass
  if input_vector.length ≠ net.lengths.input then
    some (none, { net with pass := pass })
  else do
    let memory ← writeInputs net.memory input_vector
    let queue := (memory.take net.lengths.input).map MemoryCellType.get_node
    let fuel := (memory.length + 1) *
      ((net.edge_map.map List.length).sum + (net.back_map.map List.length).sum
        + memory.length + 2)
    let mem2 ← runLoop net.edge_map net.back_map net.lengths pass fuel memory queue
    let outs := ((mem2.drop net.lengths.input).take net.lengths.output).map
        (fun c => (c.get_current_output pass).getD 0)
    pure (some outs, { net with pass := pass, memory := mem2 })

/-! ## Crossover
From `src/neat/src/crossover/misc_crossover.rs`, `crossover.rs` and
`node_crossover.rs`.  The RNG is a stream of uniform draws in `[0,1)` plus a
position. -/

/-- Abstract `rand` state: `u i` is the `i`-th uniform draw in `[0,1)`. -/
structure RngState where
  u : ℕ → ℝ
  idx : ℕ

/-- Advance the stream by one draw. -/
def RngState.next (s : RngState) : RngState := { s with idx := s.idx + 1 }

/-- `CrossoverMisc` with its `range_float` parameter (`DEFAULT_RANGE = 5.`). -/
structure CrossoverMisc where
  range_float : ℝ

/-- `CrossoverMisc::default`. -/
def CrossoverMisc.default : CrossoverMisc := ⟨5⟩

/-- `CrossoverMisc::f32_crossover`: exponent from the sigmoid of the fitness
difference scaled into `[1/range, range]`, then interpolate with
`t = u ^ expo`. -/
noncomputable def CrossoverMisc.f32_crossover (m : CrossoverMisc) (s : RngState)
    (fst weight_fst snd weight_snd : ℝ) : ℝ × RngState :=
  let expo := Activation.Sigmoid.activate (weight_fst - weight_snd)
      * (m.range_float - m.range_float⁻¹) + m.range_float⁻¹
  let t := (s.u s.idx) ^ expo
  (fst * (1 - t) + t * snd, s.next)

open Classical in
/-- `CrossoverMisc::bernoulli_crossover`: same exponent, pick the first item
iff `u ^ expo < 0.5`. -/
noncomputable def CrossoverMisc.bernoulli_crossover {T : Type} (m : CrossoverMisc)
    (s : RngState) (item_fst : T) (weight_fst : ℝ) (item_snd : T) (weight_snd : ℝ) :
    T × RngState :=
  let expo := Activation.Sigmoid.activate (weight_fst - weight_snd)
      * (m.range_float - m.range_float⁻¹) + m.range_float⁻¹
  ((if (s.u s.idx) ^ expo < 0.5 then item_fst else item_snd), s.next)

/-- The generic stream merge of `crossover.rs` (`fn merge`): walk both sorted
sequences; smaller key is copied, equal keys are crossed (one element from
each), and when one side is exhausted the other tail is appended verbatim.
`cross` may fail (`none` = panic inside the element crossover). -/
def mergeBy {T : Type} (cmp : T → T → Ordering)
    (cross : RngState → ℝ → T → ℝ → T → Option (T × RngState))
    (s : RngState) (fit_fst fit_snd : ℝ) :
    List T → List T → Option (List T × RngState)
  | [], ys => some (ys, s)
  | x :: xs, [] => some (x :: xs, s)
  | x :: xs, y :: ys =>
    match cmp x y with
    | .lt => (mergeBy cmp cross s fit_fst fit_snd xs (y :: ys)).map
        (fun r => (x :: r.1, r.2))
    | .gt => (mergeBy cmp cross s fit_fst fit_snd (x :: xs) ys).map
        (fun r => (y :: r.1, r.2))
    | .eq => do
        let c ← cross s fit_fst x fit_snd y
        let r ← mergeBy cmp cross c.2 fit_fst fit_snd xs ys
        pure (c.1 :: r.1, r.2)
termination_by la lb => la.length + lb.length

/-- `impl Crossover for GenomeEdge` (`node_crossover.rs`): assert equal
innovation numbers (`none` = the `assert_eq!` panic), cross the weight as a
scalar and `enabled` by Bernoulli; endpoints come from `self`. -/
noncomputable def GenomeEdge.crossover (s : RngState) (fit : ℝ) (a : GenomeEdge)
    (other_fit : ℝ) (b : GenomeEdge) : Option (GenomeEdge × RngState) :=
  if a.innov_number = b.innov_number then
    let w := CrossoverMisc.default.f32_crossover s a.weight fit b.weight other_fit
    let en := CrossoverMisc.default.bernoulli_crossover w.2 a.enabled fit
        b.enabled other_fit
    some ({ innov_number := a.innov_number, in_node := a.in_node
            out_node := a.out_node, weight := w.1, enabled := en.1 }, en.2)
  else none

/-- `Ord for GenomeEdge`: by innovation number alone. -/
def edgeCmp (a b : GenomeEdge) : Ordering := compare a.innov_number b.innov_number

/-- Edge-list merge as used by `Crossover for OrderedGenomeList`. -/
noncomputable def mergeEdges (s : RngState) (fit_fst fit_snd : ℝ)
    (la lb : List GenomeEdge) : Option (List GenomeEdge × RngState) :=
  mergeBy edgeCmp GenomeEdge.crossover s fit_fst fit_snd la lb

/-- The set of innovation numbers of an edge list. -/
def innovSet (l : List GenomeEdge) : Finset ℕ := (l.map (·.innov_number)).toFinset

/-- Modelled from the spec: the scalar-weight crossover formula stated in
§4.3 — `d = sigmoid(f_a − f_b)`, `factor = ln(d_raw² + e)` with
`d_raw = clamp(w_a, ±R) − clamp(w_b, ±R)`, exponent
`d·(factor − 1/factor) + 1/factor`, result `w_a·(1−t) + w_b·t` with
`t = u^exponent`. -/
noncomputable def specWeightCrossover (u w_a f_a w_b f_b R : ℝ) : ℝ :=
  let d := Activation.Sigmoid.activate (f_a - f_b)
  let d_raw := max (min w_a R) (-R) - max (min w_b R) (-R)
  let factor := Real.log (d_raw ^ 2 + Real.exp 1)
  let expo := d * (factor - factor⁻¹) + factor⁻¹
  let t := u ^ expo
  w_a * (1 - t) + t * w_b

/-- The formula the code actually computes (for the amended claim): the
`factor` is the constant `range_float` parameter itself. -/
noncomputable def codeWeightCrossover (u w_a f_a w_b f_b F : ℝ) : ℝ :=
  let expo := Activation.Sigmoid.activate (f_a - f_b) * (F - F⁻¹) + F⁻¹
  let t := u ^ expo
  w_a * (1 - t) + t * w_b

/-! ## IEEE-flavoured model of `individual/genome/aggregation.rs`
This standalone module is embedded over a value type with NaN and signed
infinities, because the claim about it concerns the NaN produced by
`Mean` of an empty iterator.  Finite values carry exact reals (rounding not
modelled); the sign of zero is not modelled. -/

/-- An `f32` value: NaN, a signed infinity, or a finite value. -/
inductive F32 where
  | nan
  | inf (neg : Bool)
  | fin (x : ℝ)

/-- IEEE addition. -/
def F32.add : F32 → F32 → F32
  | .nan, _ => .nan
  | _, .nan => .nan
  | .inf s, .inf t => if s = t then .inf s else .nan
  | .inf s, .fin _ => .inf s
  | .fin _, .inf s => .inf s
  | .fin a, .fin b => .fin (a + b)

/-- `f32::abs`. -/
def F32.abs : F32 → F32
  | .nan => .nan
  | .inf _ => .inf false
  | .fin a => .fin |a|

open Classical in
/-- `f32::max` (returns the other operand when one is NaN). -/
noncomputable def F32.fmax : F32 → F32 → F32
  | .nan, b => b
  | a, .nan => a
  | .inf false, _ => .inf false
  | _, .inf false => .inf false
  | .inf true, b => b
  | a, .inf true => a
  | .fin a, .fin b => .fin (max a b)

open Classical in
/-- IEEE division. -/
noncomputable def F32.div : F32 → F32 → F32
  | .nan, _ => .nan
  | _, .nan => .nan
  | .inf _, .inf _ => .nan
  | .inf s, .fin b => if b < 0 then .inf (!s) else .inf s
  | .fin _, .inf _ => .fin 0
  | .fin a, .fin b =>
    if b = 0 then (if a = 0 then .nan else if a < 0 then .inf true else .inf false)
    else .fin (a / b)

open Classical in
/-- IEEE multiplication. -/
noncomputable def F32.mul : F32 → F32 → F32
  | .nan, _ => .nan
  | _, .nan => .nan
  | .inf s, .inf t => .inf (s != t)
  | .inf s, .fin b => if b = 0 then .nan else if b < 0 then .inf (!s) else .inf s
  | .fin a, .inf s => if a = 0 then .nan else if a < 0 then .inf (!s) else .inf s
  | .fin a, .fin b => .fin (a * b)

open Classical in
/-- Division by a counter cast with `as f32` (`x / (cnt as f32)`);
`0/0` is NaN, `x/0` a signed infinity. -/
noncomputable def F32.divNat : F32 → ℕ → F32
  | .nan, _ => .nan
  | .inf s, _ => .inf s
  | .fin a, 0 => if a = 0 then .nan else if a < 0 then .inf true else .inf false
  | .fin a, n + 1 => .fin (a / ((n : ℝ) + 1))

open Classical in
/-- `f32::sqrt`. -/
noncomputable def F32.sqrtF : F32 → F32
  | .nan => .nan
  | .inf true => .nan
  | .inf false => .inf false
  | .fin a => if a < 0 then .nan else .fin (Real.sqrt a)

/-- `Aggregation::apply` from `individual/genome/aggregation.rs` over the
NaN-aware model.  `none` models the `expect` panic of `L2NormAvg` on an empty
iterator. -/
noncomputable def Aggregation.applyF32 : Aggregation → List F32 → Option F32
  | .Sum, l => some (l.foldl F32.add (.fin 0))
  | .Max, l => some (match l with
      | [] => .fin 0
      | x :: xs => xs.foldl F32.fmax x)
  | .Mean, l =>
      let p := l.foldl (fun (ac : F32 × ℕ) x => (F32.add ac.1 x, ac.2 + 1)) (.fin 0, 0)
      some (p.1.divNat p.2)
  | .L2NormAvg, l =>
      match l with
      | [] => none
      | x :: xs =>
        let alpha := xs.foldl (fun a b => F32.fmax a.abs b.abs) x
        let ssum := (x :: xs).foldl
          (fun acc y => F32.add acc (F32.mul (F32.div y alpha) (F32.div y alpha)))
          (.fin 0)
        some ((F32.mul ssum.sqrtF alpha).divNat (x :: xs).length)
  | .L1NormAvg, l =>
      let p := l.foldl (fun (ac : F32 × ℕ) x => (F32.add ac.1 x.abs, ac.2 + 1)) (.fin 0, 0)
      some (p.1.divNat p.2)

/-! ## Mutation
From `src/neat/src/mutation/mutation.rs`.  All RNG draws are fixed ahead of
time by a `MutOracle`; `gen_bool` outcomes are the oracle's booleans, so the
probability matrix itself does not appear. -/

/-- Modelled from the spec: the innovation counter.  The module
`mutation/innovation_number.rs` (`InnovNumber`) is not among the sources; per
§2/§5 it is a monotonic integer counter handed out to structural mutations,
modelled here with `next` returning the current value and incrementing. -/
structure InnovNumber where
  counter : ℕ

/-- Modelled from the spec: `InnovNumber::next`. -/
def InnovNumber.next (c : InnovNumber) : ℕ × InnovNumber :=
  (c.counter, ⟨c.counter + 1⟩)

/-- `GaussianMutation`'s non-probability parameters. -/
structure GaussianMutation where
  coeff : ℝ
  max_iteration : ℕ

/-- Oracle fixing every draw of one `mutate` call. -/
structure MutOracle where
  nodeClampB : ℕ → Bool
  nodeAggB : ℕ → Bool
  nodeActB : ℕ → Bool
  nodeClampMinU : ℕ → ℝ
  nodeClampMaxU : ℕ → ℝ
  nodeAggVal : ℕ → Aggregation
  nodeActVal : ℕ → Activation
  nodeActU1 : ℕ → ℝ
  nodeActU2 : ℕ → ℝ
  edgeEnabledB : ℕ → Bool
  edgeWeightB : ℕ → Bool
  edgeWeightU : ℕ → ℝ
  newNodeB : Bool
  pickEdgeU : ℕ
  newNodeAgg : Aggregation
  newNodeAct : Activation
  newEdge1U : ℝ
  newEdge2U : ℝ
  newEdgeB : Bool
  attemptStartU : ℕ → ℕ
  attemptEndU : ℕ → ℕ
  attemptWU : ℕ → ℝ
  attemptEnabledB : ℕ → Bool

/-- `weight_mutation`: `(U(0,1)·2 − 1)·coeff`. -/
def weight_mutation (u coeff : ℝ) : ℝ := (u * 2 - 1) * coeff

/-- One node's config mutation (clamp jitter, aggregation resample,
activation resample with fresh parameters for `Softplus`/`Selu`);
`i` is the node's position in the `hidden ++ output` chain. -/
def mutateNodeConfig (o : MutOracle) (i : ℕ) (nd : Node) : Node :=
  let cfg := nd.config
  let cl := if o.nodeClampB i then
      { min_limit := cfg.clamp.min_limit.map (· + weight_mutation (o.nodeClampMinU i) 1)
        max_limit := cfg.clamp.max_limit.map (· + weight_mutation (o.nodeClampMaxU i) 1) }
    else cfg.clamp
  let ag := if o.nodeAggB i then o.nodeAggVal i else cfg.aggregation
  let ac := if o.nodeActB i then
      (match o.nodeActVal i with
       | .Softplus _ => .Softplus (weight_mutation (o.nodeActU1 i) 1)
       | .Selu _ _ => .Selu (weight_mutation (o.nodeActU1 i) 1)
           (weight_mutation (o.nodeActU2 i) 1)
       | v => v)
    else cfg.activation
  { nd with config := { aggregation := ag, clamp := cl, activation := ac } }

/-- Config mutation over a node list, numbering draws from `i` on. -/
def mutateNodes (o : MutOracle) : ℕ → List Node → List Node
  | _, [] => []
  | i, nd :: rest => mutateNodeConfig o i nd :: mutateNodes o (i + 1) rest

/-- Phase 1 of `mutate`: config mutation over `hidden` then `output`. -/
def phase1 (o : MutOracle) (nl : NodeList) : NodeList :=
  { input := nl.input
    output := mutateNodes o nl.hidden.length nl.output
    hidden := mutateNodes o 0 nl.hidden }

/-- One edge's mutation (enabled flip, then weight jitter). -/
def mutateEdgeGene (o : MutOracle) (coeff : ℝ) (i : ℕ) (e : GenomeEdge) : GenomeEdge :=
  let e1 := if o.edgeEnabledB i then { e with enabled := !e.enabled } else e
  if o.edgeWeightB i then
    { e1 with weight := e1.weight + weight_mutation (o.edgeWeightU i) coeff }
  else e1

/-- Per-edge mutation over an edge list, numbering draws from `i` on. -/
def mutateEdges (o : MutOracle) (coeff : ℝ) : ℕ → List GenomeEdge → List GenomeEdge
  | _, [] => []
  | i, e :: rest => mutateEdgeGene o coeff i e :: mutateEdges o coeff (i + 1) rest

/-- Phase 2 of `mutate`: per-edge mutation over the edge list. -/
def phase2 (o : MutOracle) (coeff : ℝ) (es : List GenomeEdge) : List GenomeEdge :=
  mutateEdges o coeff 0 es

/-- `IteratorRandom::choose` with the oracle's index: `none` iff the list is
empty (the callers `.unwrap()`, i.e. panic). -/
def pickFrom {α : Type} (l : List α) (i : ℕ) : Option α := l.get? (i % l.length)

/-- The add-node branch of `mutate`: pick a random edge, disable it, create a
hidden node at the exact rational midpoint of the edge's endpoint levels with
a fresh innovation number as id, and append the two replacement edges with two
further fresh numbers. -/
def addNode (o : MutOracle) (nl : NodeList) (es : List GenomeEdge)
    (c : InnovNumber) : Option (NodeList × List GenomeEdge × InnovNumber) := do
  if es.isEmpty then none
  else do
    let i := o.pickEdgeU % es.length
    let e ← es.get? i
    let concated := nl.input ++ nl.output ++ nl.hidden
    let si ← bsearchBy Node.node_id concated e.in_node
    let ei ← bsearchBy Node.node_id concated e.out_node
    let node_start ← concated.get? si
    let node_end ← concated.get? ei
    let es2 := es.set i { e with enabled := false }
    let pr1 := c.next
    let new_node : Node :=
      { node_id := pr1.1
        level := (node_start.level + node_end.level) / 2
        config := { aggregation := o.newNodeAgg, clamp := Clamp.default
                    activation := o.newNodeAct } }
    let pr2 := pr1.2.next
    let edge1 : GenomeEdge :=
      { innov_number := pr2.1, in_node := node_start.node_id
        out_node := new_node.node_id, weight := 2 * o.newEdge1U - 1, enabled := true }
    let pr3 := pr2.2.next
    let edge2 : GenomeEdge :=
      { innov_number := pr3.1, in_node := new_node.node_id
        out_node := node_end.node_id, weight := 2 * o.newEdge2U - 1, enabled := true }
    pure ({ nl with hidden := nl.hidden ++ [new_node] }, es2 ++ [edge1, edge2], pr3.2)

/-- The retry count of the add-edge branch:
`(0.01.log(ratio).ceil().min(100.) as usize + 2).min(max_iteration)`
(`as usize` saturates negatives at 0, matching `Int.toNat`). -/
noncomputable def attemptCount (len total maxIter : ℕ) : ℕ :=
  let r : ℝ := (len : ℝ) / (total : ℝ)
  min ((min ⌈Real.log 0.01 / Real.log r⌉ 100).toNat + 2) maxIter

/-- The attempt loop of the add-edge branch: pick endpoints, skip existing
pairs, append one fresh edge and stop. -/
def addEdgeLoop (o : MutOracle) (pairs : List (ℕ × ℕ))
    (startPool endPool : List Node) :
    ℕ → ℕ → List GenomeEdge → InnovNumber → Option (List GenomeEdge × InnovNumber)
  | 0, _, es, c => some (es, c)
  | k + 1, attemptIdx, es, c => do
    let ns ← pickFrom startPool (o.attemptStartU attemptIdx)
    let ne ← pickFrom endPool (o.attemptEndU attemptIdx)
    if (ns.node_id, ne.node_id) ∈ pairs then
      addEdgeLoop o pairs startPool endPool k (attemptIdx + 1) es c
    else
      let pr := c.next
      pure (es ++ [{ innov_number := pr.1, in_node := ns.node_id
                     out_node := ne.node_id, weight := 2 * o.attemptWU attemptIdx - 1
                     enabled := o.attemptEnabledB attemptIdx }], pr.2)

/-- The add-edge branch of `mutate`: no-op when the edge count equals the
theoretical capacity, otherwise a bounded number of attempts. -/
noncomputable def addEdge (o : MutOracle) (maxIter : ℕ) (nl : NodeList)
    (es : List GenomeEdge) (c : InnovNumber) :
    Option (List GenomeEdge × InnovNumber) :=
  let n := nl.input.length
  let p := nl.hidden.length + nl.output.length
  let total := n * p + p * (p - 1)
  if es.length ≠ total then
    addEdgeLoop o (es.map (fun e => (e.in_node, e.out_node)))
      (nl.input ++ nl.hidden ++ nl.output) (nl.hidden ++ nl.output)
      (attemptCount es.length total maxIter) 0 es c
  else some (es, c)

/-- `GaussianMutation::mutate`: node-config phase, per-edge phase, then the
add-node and add-edge branches when their draws trigger. -/
noncomputable def mutate (g : GaussianMutation) (o : MutOracle) (genome : Genome)
    (c : InnovNumber) : Option (Genome × InnovNumber) := do
  let nl := phase1 o genome.node_list
  let es := phase2 o g.coeff genome.genome_list.edge_list
  let r1 ← if o.newNodeB then addNode o nl es c else pure (nl, es, c)
  let r2 ← if o.newEdgeB then addEdge o g.max_iteration r1.1 r1.2.1 r1.2.2
           else pure (r1.2.1, r1.2.2)
  pure ({ node_list := r1.1, genome_list := ⟨r2.1⟩ }, r2.2)

/-- A sequence of `mutate` calls, threading genome and counter. -/
noncomputable def mutateSeq (g : GaussianMutation) :
    List MutOracle → Genome → InnovNumber → Option (Genome × InnovNumber)
  | [], genome, c => some (genome, c)
  | o :: os, genome, c => do
    let r ← mutate g o genome c
    mutateSeq g os r.1 r.2

/-- Maximum innovation number appearing in any edge of a genome (0 when there
are no edges). -/
def maxInnov (genome : Genome) : ℕ :=
  (genome.genome_list.edge_list.map (·.innov_number)).foldr max 0

/-! ## Speciation and the orchestrator
From `src/neat/src/speciation/speciation.rs` and `src/neat/src/lib.rs`.
Selection and crossover enter `evolve` through traits; they are abstract
function parameters here, threading an abstract RNG state `ρ`. -/

open Classical in
/-- The cluster test of `SpeciationThreshold::speciate`: the representative
(first member) compares at least at threshold.  An empty cluster makes the
source panic; clusters are never empty, and the predicate is `false` there. -/
noncomputable def clusterPred {I : Type} (cmp : I → I → ℝ) (threshold : ℝ)
    (el : I) (x : List I) : Bool :=
  match x.head? with
  | some h => decide (threshold ≤ cmp h el)
  | none => false

/-- Insert one individual into the first matching cluster, else open a new
cluster at the end. -/
noncomputable def speciateInsert {I : Type} (cmp : I → I → ℝ) (threshold : ℝ)
    (el : I) : List (List I) → List (List I)
  | [] => [[el]]
  | x :: xs =>
    if clusterPred cmp threshold el x then (x ++ [el]) :: xs
    else x :: speciateInsert cmp threshold el xs

/-- `SpeciationThreshold::speciate`: threshold-based single-linkage
clustering, preserving iteration order. -/
noncomputable def speciate {I : Type} (cmp : I → I → ℝ) (threshold : ℝ)
    (population : List I) : List (List I) :=
  population.foldl (fun ret el => speciateInsert cmp threshold el ret) []

/-- The per-species loop body of `GeneticAlgortihm::evolve`.  For a non-empty
species the first child iteration selects two parents (note: the source hands
`parent_a`'s fitness to both `Item`s) and crosses them — and then hits
`todo!("Mutation")`, which panics (`none`). -/
def evolveGo {I ρ : Type} (sel : ρ → List I → Option (I × ρ))
    (cross : ρ → Genome → ℝ → Genome → ℝ → Option (Genome × ρ))
    (fitness : I → ℝ) (to_genome : I → Genome) :
    List (List I) → ρ → Option (List Genome)
  | [], _ => some []
  | sub :: rest, rng =>
    match sub with
    | [] => evolveGo sel cross fitness to_genome rest rng
    | _ :: _ => do
      let pa ← sel rng sub
      let pb ← sel pa.2 sub
      let _ ← cross pb.2 (to_genome pa.1) (fitness pa.1) (to_genome pb.1)
          (fitness pa.1)
      none

/-- `GeneticAlgortihm::evolve` with `SpeciationThreshold` speciation:
assert non-empty, speciate, then the per-species child loop. -/
noncomputable def evolve {I ρ : Type} (cmp : I → I → ℝ) (threshold : ℝ)
    (sel : ρ → List I → Option (I × ρ))
    (cross : ρ → Genome → ℝ → Genome → ℝ → Option (Genome × ρ))
    (fitness : I → ℝ) (to_genome : I → Genome)
    (rng : ρ) (population : List I) : Option (List Genome) :=
  if population.isEmpty then none
  else evolveGo sel cross fitness to_genome (speciate cmp threshold population) rng

/-! ## Concrete instances used by counterexamples and witnesses -/

/-- An oracle whose every draw is the blandest possible value. -/
def oracleBase : MutOracle :=
  { nodeClampB := fun _ => false, nodeAggB := fun _ => false
    nodeActB := fun _ => false
    nodeClampMinU := fun _ => 0, nodeClampMaxU := fun _ => 0
    nodeAggVal := fun _ => .Mean, nodeActVal := fun _ => .Relu
    nodeActU1 := fun _ => 0, nodeActU2 := fun _ => 0
    edgeEnabledB := fun _ => false, edgeWeightB := fun _ => false
    edgeWeightU := fun _ => 0
    newNodeB := false, pickEdgeU := 0
    newNodeAgg := .Mean, newNodeAct := .Relu
    newEdge1U := 0, newEdge2U := 0
    newEdgeB := false
    attemptStartU := fun _ => 0, attemptEndU := fun _ => 0
    attemptWU := fun _ => 0, attemptEnabledB := fun _ => false }

/-- A genome with no nodes and no edges. -/
def emptyGenome : Genome := ⟨⟨[], [], []⟩, ⟨[]⟩⟩

/-- A throwaway network state expecting one input. -/
def oneInNet : FFNetwork := ⟨[], false, [], [], ⟨1, 0, 0⟩⟩

/-- A draw stream that always answers `1/2`. -/
noncomputable def halfRng : RngState := ⟨fun _ => 1 / 2, 0⟩

/-- An input node at the minimum level with default-style config. -/
def c1InNode : Node := ⟨0, ⟨.Mean, Clamp.default, .Relu⟩, 1⟩

/-- An output node whose configuration asks for `Sum` aggregation and
`Identity` activation. -/
def c1OutNode : Node := ⟨1, ⟨.Sum, Clamp.default, .Identity⟩, 100⟩

/-- The node list pairing the two nodes above. -/
def c1Nodes : NodeList := ⟨[c1InNode], [c1OutNode], []⟩

/-- The network built from `c1Nodes` with no edges. -/
def c1Net : FFNetwork :=
  ⟨[.Input c1InNode 0, .Activation (MemoryCell.default c1OutNode)],
   false, [[], []], [], ⟨1, 1, 0⟩⟩

/-- A genome over `c1Nodes` with one enabled input→output edge. -/
def c7Genome : Genome := ⟨c1Nodes, ⟨[⟨0, 0, 1, 1, true⟩]⟩⟩

/-- An oracle triggering only the add-node mutation. -/
def c7Oracle : MutOracle := { oracleBase with newNodeB := true }

/-- The genome `mutate` produces from `c7Genome` under `c7Oracle` with the
counter at 5: the edge is split by hidden node 5 at level `101/2`. -/
def c7Result : Genome :=
  ⟨⟨[c1InNode], [c1OutNode], [⟨5, ⟨.Mean, Clamp.default, .Relu⟩, (1 + 100) / 2⟩]⟩,
   ⟨[⟨0, 0, 1, 1, false⟩, ⟨6, 0, 5, 2 * 0 - 1, true⟩, ⟨7, 5, 1, 2 * 0 - 1, true⟩]⟩⟩

/-- First oracle of the 3K counterexample: add-node and add-edge both
trigger; the add-edge attempt proposes output 1 → hidden 2. -/
def c6Oracle1 : MutOracle :=
  { oracleBase with
    newNodeB := true, newEdgeB := true
    attemptStartU := fun _ => 2, attemptEndU := fun _ => 0 }

/-- Second oracle of the 3K counterexample: both topological mutations again;
the split picks edge index 1 and the add-edge attempt proposes 1 → 6. -/
def c6Oracle2 : MutOracle :=
  { oracleBase with
    newNodeB := true, newEdgeB := true, pickEdgeU := 1
    attemptStartU := fun _ => 3, attemptEndU := fun _ => 1 }

/-- The hidden node created by the first counterexample call. -/
def c6Node2 : Node := ⟨2, ⟨.Mean, Clamp.default, .Relu⟩, (1 + 100) / 2⟩

/-- Node list after the first call's add-node. -/
def c6NL1 : NodeList := ⟨[c1InNode], [c1OutNode], [c6Node2]⟩

/-- Edge list after the first call's add-node. -/
def c6ES1 : List GenomeEdge :=
  [⟨0, 0, 1, 1, false⟩, ⟨3, 0, 2, 2 * 0 - 1, true⟩, ⟨4, 2, 1, 2 * 0 - 1, true⟩]

/-- Genome after the first counterexample call (counter 2 → 6). -/
def c6G1 : Genome := ⟨c6NL1, ⟨c6ES1 ++ [⟨5, 1, 2, 2 * 0 - 1, false⟩]⟩⟩

/-- The hidden node created by the second counterexample call. -/
def c6Node6 : Node := ⟨6, ⟨.Mean, Clamp.default, .Relu⟩, (1 + (1 + 100) / 2) / 2⟩

/-- Node list after the second call's add-node. -/
def c6NL2 : NodeList := ⟨[c1InNode], [c1OutNode], [c6Node2, c6Node6]⟩

/-- Edge list after the second call's add-node. -/
def c6ES2 : List GenomeEdge :=
  [⟨0, 0, 1, 1, false⟩, ⟨3, 0, 2, 2 * 0 - 1, false⟩, ⟨4, 2, 1, 2 * 0 - 1, true⟩,
   ⟨5, 1, 2, 2 * 0 - 1, false⟩, ⟨7, 0, 6, 2 * 0 - 1, true⟩,
   ⟨8, 6, 2, 2 * 0 - 1, true⟩]

/-- Genome after the second counterexample call (counter 6 → 10);
its maximum innovation number is 9. -/
def c6G2 : Genome := ⟨c6NL2, ⟨c6ES2 ++ [⟨9, 1, 6, 2 * 0 - 1, false⟩]⟩⟩

/-- Nodes for the literal forward-pass example: inputs 0, 1 at level 1,
outputs 2–5 at level 100, no hidden nodes, default-style configs. -/
def c2Nodes : NodeList :=
  ⟨[c1InNode, ⟨1, ⟨.Mean, Clamp.default, .Relu⟩, 1⟩],
   [⟨2, ⟨.Mean, Clamp.default, .Relu⟩, 100⟩, ⟨3, ⟨.Mean, Clamp.default, .Relu⟩, 100⟩,
    ⟨4, ⟨.Mean, Clamp.default, .Relu⟩, 100⟩, ⟨5, ⟨.Mean, Clamp.default, .Relu⟩, 100⟩],
   []⟩

/-- All 8 input→output edges, enabled, weight `1/2`. -/
noncomputable def c2Edges : List GenomeEdge :=
  [⟨0, 0, 2, 1/2, true⟩, ⟨1, 0, 3, 1/2, true⟩, ⟨2, 0, 4, 1/2, true⟩,
   ⟨3, 0, 5, 1/2, true⟩, ⟨4, 1, 2, 1/2, true⟩, ⟨5, 1, 3, 1/2, true⟩,
   ⟨6, 1, 4, 1/2, true⟩, ⟨7, 1, 5, 1/2, true⟩]

/-- The value each output cell of the `c2Nodes`/`c2Edges` network holds after
one forward pass on `(1/10, 1/2)`: clamped Relu of the mean of the two
weighted inputs plus the zero bias. -/
noncomputable def c2OutVal : ℝ :=
  Clamp.default.activate
    (Activation.activate .Relu
      (Aggregation.apply .Mean [1/10 * (1/2), 1/2 * (1/2)] + 0))

end Neat

namespace Neat

/-! ## Theorems -/

/-- C10: `Aggregation::Mean` applied to the empty sequence returns NaN
(it computes `0/0`), unlike `Sum` and `Max`, which return `0` on the empty
sequence. -/
theorem mean_empty_returns_nan :
    Aggregation.Mean.applyF32 [] = some .nan ∧
    Aggregation.Sum.applyF32 [] = some (.fin 0) ∧
    Aggregation.Max.applyF32 [] = some (.fin 0) := by
  refine ⟨?_, rfl, rfl⟩
  simp [Aggregation.applyF32, F32.divNat]

/-- C9: `forward` toggles the pass flag before validating the input length: a
wrong-length call returns the error (`None`) with the pass flag flipped and
the memory untouched, and any cell activated in the previous pass reads as
stale (no current output) under the new flag. -/
theorem forward_flips_pass_on_invalid_input (net : FFNetwork)
    (input_vector : List ℝ)
    (h : input_vector.length ≠ net.lengths.input) :
    net.forward input_vector = some (none, { net with pass := !net.pass }) ∧
    ∀ c : MemoryCell, c.activated = net.pass →
      c.get_current_output (!net.pass) = none := by
  constructor
  · simp [FFNetwork.forward, h]
  · intro c hc
    simp [MemoryCell.get_current_output, hc]

/-- Witness for C9 at a concrete network and the empty input vector. -/
theorem forward_flips_pass_on_invalid_input_witness :
    ([] : List ℝ).length ≠ oneInNet.lengths.input ∧
    (oneInNet.forward [] = some (none, { oneInNet with pass := !oneInNet.pass }) ∧
      ∀ c : MemoryCell, c.activated = oneInNet.pass →
        c.get_current_output (!oneInNet.pass) = none) :=
  ⟨by simp [oneInNet],
   forward_flips_pass_on_invalid_input oneInNet [] (by simp [oneInNet])⟩

/-- C5 (amended): the scalar-weight crossover returns
`w_a·(1−t) + w_b·t` with `t = u^exponent` and
`exponent = sigmoid(f_a−f_b)·(F − 1/F) + 1/F`, where `F` is the constant
`range_float` parameter, whose default is `5` — not a log-derived factor. -/
theorem f32_crossover_formula (s : RngState) (fst weight_fst snd weight_snd : ℝ) :
    (CrossoverMisc.default.f32_crossover s fst weight_fst snd weight_snd).1 =
      codeWeightCrossover (s.u s.idx) fst weight_fst snd weight_snd 5 ∧
    CrossoverMisc.default.range_float = 5 :=
  ⟨rfl, rfl⟩

/-- C8: calling `mutate` on a genome with an empty edge list while the
add-node draw triggers panics (the `choose(rng).unwrap()` of an empty edge
iterator). -/
theorem mutate_empty_edges_panics (g : GaussianMutation) (o : MutOracle)
    (genome : Genome) (c : InnovNumber)
    (hempty : genome.genome_list.edge_list = [])
    (htrig : o.newNodeB = true) :
    mutate g o genome c = none := by
  simp [mutate, htrig, phase2, hempty, addNode, mutateEdges]

/-- Witness for C8: the factory-style empty genome panics under an add-node
trigger. -/
theorem mutate_empty_edges_panics_witness :
    emptyGenome.genome_list.edge_list = [] ∧
    ({ oracleBase with newNodeB := true } : MutOracle).newNodeB = true ∧
    mutate ⟨1, 10⟩ { oracleBase with newNodeB := true } emptyGenome ⟨0⟩ = none :=
  ⟨rfl, rfl, mutate_empty_edges_panics ⟨1, 10⟩ _ emptyGenome ⟨0⟩ rfl rfl⟩

/-- The memory of a freshly built network: the wrapped node cells, stably
sorted by node id.  Every activation cell is built by `MemoryCell::default`. -/
theorem new_memory (nl : NodeList) (gl : List GenomeEdge) (net : FFNetwork)
    (h : FFNetwork.new nl gl = some net) :
    net.memory = (nl.input.map (fun c => MemoryCellType.Input c 0) ++
      (nl.output ++ nl.hidden).map
        (fun c => MemoryCellType.Activation (MemoryCell.default c))).insertionSort
      (fun a b => a.get_node.node_id ≤ b.get_node.node_id) := by
  simp only [FFNetwork.new, bind, Option.bind_eq_some, Option.some.injEq] at h
  obtain ⟨maps, -, h2⟩ := h
  rw [Option.pure_def] at h2
  injection h2 with h3
  rw [← h3]

/-- The network ignores the nodes' own configuration: `FFNetwork.new` builds
`c1Net` from `c1Nodes`. -/
theorem c1_new : FFNetwork.new c1Nodes [] = some c1Net := rfl

/-- C1 (counterexample): it is not the case that the cells of a built network
carry their node's own configured aggregation/activation/clamp; at `c1Nodes`
(whose output node asks for `Sum` aggregation) the built cell aggregates with
`Mean`. -/
theorem network_node_config_counterexample :
    ¬ (∀ (nl : NodeList) (gl : List GenomeEdge) (net : FFNetwork) (c : MemoryCell),
        FFNetwork.new nl gl = some net →
        MemoryCellType.Activation c ∈ net.memory →
        (c.aggregation = c.node_id.config.aggregation ∧
         c.activation = c.node_id.config.activation ∧
         c.clamp = c.node_id.config.clamp) ∧
        ∀ p : Bool,
          (c.activate p).current =
            c.clamp.activate (c.activation.activate
              (c.aggregation.apply c.current_data + c.bias))) := by
  intro h
  have hc := h c1Nodes [] c1Net (MemoryCell.default c1OutNode) c1_new
    (by simp [c1Net])
  have h1 := hc.1.1
  simp [MemoryCell.default, MemoryCell.new, c1OutNode] at h1

/-- C1 (amended): every activation cell of a built network carries the
default configuration — `Mean` aggregation, `Relu` activation, clamp
`[-5, 5]`, zero bias — and activating a cell stores (that) aggregation over
its pending inputs plus bias, then activation, then clamp, shifting the old
`current` into `prev`, clearing pending inputs and stamping `activated` with
the pass flag. -/
theorem network_applies_default_config
    (nl : NodeList) (gl : List GenomeEdge) (net : FFNetwork) (c : MemoryCell)
    (hnew : FFNetwork.new nl gl = some net)
    (hmem : MemoryCellType.Activation c ∈ net.memory) :
    (c.aggregation = .Mean ∧ c.activation = .Relu ∧
      c.clamp = ⟨some (-5), some 5⟩ ∧ c.bias = 0) ∧
    ∀ p : Bool,
      (c.activate p).current =
        c.clamp.activate (c.activation.activate
          (c.aggregation.apply c.current_data + c.bias)) ∧
      (c.activate p).prev = c.current ∧
      (c.activate p).current_data = [] ∧
      (c.activate p).activated = p := by
  constructor
  · rw [new_memory nl gl net hnew, List.mem_insertionSort] at hmem
    rcases List.mem_append.mp hmem with hin | hout
    · obtain ⟨nd, -, heq⟩ := List.mem_map.mp hin
      exact absurd heq (by simp)
    · obtain ⟨nd, -, heq⟩ := List.mem_map.mp hout
      injection heq with h2
      subst h2
      simp [MemoryCell.default, MemoryCell.new]
  · intro p
    exact ⟨rfl, rfl, rfl, rfl⟩

/-- Witness for C1 (amended) at the concrete network `c1Net`. -/
theorem network_applies_default_config_witness :
    FFNetwork.new c1Nodes [] = some c1Net ∧
    MemoryCellType.Activation (MemoryCell.default c1OutNode) ∈ c1Net.memory ∧
    (((MemoryCell.default c1OutNode).aggregation = .Mean ∧
      (MemoryCell.default c1OutNode).activation = .Relu ∧
      (MemoryCell.default c1OutNode).clamp = ⟨some (-5), some 5⟩ ∧
      (MemoryCell.default c1OutNode).bias = 0) ∧
     ∀ p : Bool,
       ((MemoryCell.default c1OutNode).activate p).current =
         (MemoryCell.default c1OutNode).clamp.activate
           ((MemoryCell.default c1OutNode).activation.activate
             ((MemoryCell.default c1OutNode).aggregation.apply
               (MemoryCell.default c1OutNode).current_data +
                 (MemoryCell.default c1OutNode).bias)) ∧
       ((MemoryCell.default c1OutNode).activate p).prev =
         (MemoryCell.default c1OutNode).current ∧
       ((MemoryCell.default c1OutNode).activate p).current_data = [] ∧
       ((MemoryCell.default c1OutNode).activate p).activated = p) :=
  ⟨c1_new, by simp [c1Net],
   network_applies_default_config c1Nodes [] c1Net (MemoryCell.default c1OutNode)
     c1_new (by simp [c1Net])⟩

/-- Binding a constant `none` continuation yields `none`. -/
theorem option_bind_none {α β : Type} (x : Option α) (f : α → Option β)
    (hf : ∀ a, f a = none) : x.bind f = none := by
  cases x <;> simp [hf]

/-- `speciateInsert` keeps every cluster non-empty and never empties the
cluster list. -/
theorem speciateInsert_nonempty {I : Type} (cmp : I → I → ℝ) (threshold : ℝ)
    (el : I) (acc : List (List I)) (hacc : ∀ s ∈ acc, s ≠ []) :
    (∀ s ∈ speciateInsert cmp threshold el acc, s ≠ []) ∧
      speciateInsert cmp threshold el acc ≠ [] := by
  induction acc with
  | nil => simp [speciateInsert]
  | cons x xs ih =>
    rcases hb : clusterPred cmp threshold el x with - | -
    · have hx := hacc x (by simp)
      have hxs : ∀ s ∈ xs, s ≠ [] := fun s hs => hacc s (by simp [hs])
      obtain ⟨ih1, -⟩ := ih hxs
      refine ⟨?_, by simp [speciateInsert, hb]⟩
      intro s hs
      rw [speciateInsert] at hs
      simp only [hb, Bool.false_eq_true, if_false, List.mem_cons] at hs
      rcases hs with rfl | hs
      · exact hx
      · exact ih1 s hs
    · refine ⟨?_, by simp [speciateInsert, hb]⟩
      intro s hs
      rw [speciateInsert] at hs
      simp only [hb, if_true, List.mem_cons] at hs
      rcases hs with rfl | hs
      · simp
      · exact hacc s (by simp [hs])

/-- Every cluster produced by `speciate` on a non-empty population is
non-empty, and there is at least one cluster. -/
theorem speciate_nonempty {I : Type} (cmp : I → I → ℝ) (threshold : ℝ)
    (population : List I) (h : population ≠ []) :
    speciate cmp threshold population ≠ [] ∧
      ∀ s ∈ speciate cmp threshold population, s ≠ [] := by
  have key : ∀ (pop : List I) (acc : List (List I)), (∀ s ∈ acc, s ≠ []) →
      (∀ s ∈ pop.foldl (fun ret el => speciateInsert cmp threshold el ret) acc, s ≠ []) ∧
      ((acc ≠ [] ∨ pop ≠ []) →
        pop.foldl (fun ret el => speciateInsert cmp threshold el ret) acc ≠ []) := by
    intro pop
    induction pop with
    | nil => intro acc hacc; exact ⟨hacc, fun hc => by
        simpa using hc.resolve_right (by simp)⟩
    | cons p ps ih =>
      intro acc hacc
      obtain ⟨h1, h2⟩ := speciateInsert_nonempty cmp threshold p acc hacc
      obtain ⟨ih1, ih2⟩ := ih (speciateInsert cmp threshold p acc) h1
      exact ⟨ih1, fun _ => ih2 (Or.inl h2)⟩
  obtain ⟨k1, k2⟩ := key population [] (by simp)
  exact ⟨k2 (Or.inr h), k1⟩

/-- The per-species loop reaches `todo!("Mutation")` (a panic) as soon as one
species is non-empty. -/
theorem evolveGo_none {I ρ : Type} (sel : ρ → List I → Option (I × ρ))
    (cross : ρ → Genome → ℝ → Genome → ℝ → Option (Genome × ρ))
    (fitness : I → ℝ) (to_genome : I → Genome)
    (l : List (List I)) (rng : ρ)
    (hne : l ≠ []) (hall : ∀ s ∈ l, s ≠ []) :
    evolveGo sel cross fitness to_genome l rng = none := by
  cases l with
  | nil => exact absurd rfl hne
  | cons sub rest =>
    cases sub with
    | nil => exact absurd rfl (hall [] (by simp))
    | cons a as =>
      show Option.bind (sel rng (a :: as)) _ = none
      refine option_bind_none _ _ (fun pa => ?_)
      refine option_bind_none _ _ (fun pb => ?_)
      exact option_bind_none _ _ (fun _ => rfl)

/-- C3 (code bug): `evolve` on any non-empty population panics at
`todo!("Mutation")` before producing a single child, for every selection and
crossover collaborator. -/
theorem evolve_panics_on_nonempty {I ρ : Type} (cmp : I → I → ℝ) (threshold : ℝ)
    (sel : ρ → List I → Option (I × ρ))
    (cross : ρ → Genome → ℝ → Genome → ℝ → Option (Genome × ρ))
    (fitness : I → ℝ) (to_genome : I → Genome) (rng : ρ)
    (population : List I) (h : population ≠ []) :
    evolve cmp threshold sel cross fitness to_genome rng population = none := by
  cases population with
  | nil => exact absurd rfl h
  | cons p ps =>
    obtain ⟨hs1, hs2⟩ := speciate_nonempty cmp threshold (p :: ps) (by simp)
    simp only [evolve, List.isEmpty_cons, Bool.false_eq_true, if_false]
    exact evolveGo_none sel cross fitness to_genome _ rng hs1 hs2

/-- Witness for C3 at a one-individual population. -/
theorem evolve_panics_on_nonempty_witness :
    ([0] : List ℕ) ≠ [] ∧
    evolve (fun _ _ => (0 : ℝ)) 0 (fun (_ : Unit) _ => none)
      (fun _ _ _ _ _ => none) (fun _ => 0) (fun _ => emptyGenome) () [0] = none :=
  ⟨by simp, evolve_panics_on_nonempty _ _ _ _ _ _ _ _ (by simp)⟩

/-- C5 (counterexample): at weights `w_a = 0`, `w_b = 1`, equal fitnesses and
the draw `u = 1/2`, the code's scalar-weight crossover (constant factor 5)
differs from the spec's log-derived formula with range 1000. -/
theorem f32_crossover_spec_counterexample :
    (CrossoverMisc.default.f32_crossover halfRng 0 0 1 0).1 ≠
      specWeightCrossover (1/2) 0 0 1 0 1000 := by
  have hsig : Activation.Sigmoid.activate ((0:ℝ) - 0) = 1/2 := by
    simp [Activation.activate]
    norm_num [Real.exp_zero]
  have hL1 : (1:ℝ) < Real.log (1 + Real.exp 1) := by
    have h0 : Real.exp 1 < 1 + Real.exp 1 := by linarith
    have h1 := Real.log_lt_log (Real.exp_pos 1) h0
    rwa [Real.log_exp] at h1
  have hL2 : Real.log (1 + Real.exp 1) < 2 := by
    rw [Real.log_lt_iff_lt_exp (by positivity)]
    have h9 := Real.exp_one_gt_d9
    have h2 : Real.exp 2 = Real.exp 1 * Real.exp 1 := by
      rw [← Real.exp_add]; norm_num
    nlinarith
  set L := Real.log (1 + Real.exp 1) with hLdef
  have hinv : L⁻¹ < 1 := inv_lt_one_of_one_lt₀ hL1
  have hlt : (L + L⁻¹) / 2 < 13 / 5 := by linarith
  have hLHS : (CrossoverMisc.default.f32_crossover halfRng 0 0 1 0).1 =
      (1/2 : ℝ) ^ (13/5 : ℝ) := by
    simp only [CrossoverMisc.f32_crossover, CrossoverMisc.default, halfRng, hsig]
    norm_num
  have hRHS : specWeightCrossover (1/2) 0 0 1 0 1000 =
      (1/2 : ℝ) ^ ((L + L⁻¹) / 2) := by
    simp only [specWeightCrossover, hsig]
    have hdraw : max (min (0:ℝ) 1000) (-1000) - max (min (1:ℝ) 1000) (-1000)
        = -1 := by
      norm_num [min_def, max_def]
    rw [hdraw]
    have hfac : ((-1:ℝ)) ^ (2:ℕ) + Real.exp 1 = 1 + Real.exp 1 := by norm_num
    rw [hfac, ← hLdef]
    rw [show (1/2 : ℝ) * (L - L⁻¹) + L⁻¹ = (L + L⁻¹) / 2 by ring]
    ring_nf
  rw [hLHS, hRHS]
  intro hEq
  have hmono := (Real.rpow_lt_rpow_left_iff_of_base_lt_one
    (by norm_num : (0:ℝ) < 1/2) (by norm_num : (1/2:ℝ) < 1)).mpr hlt
  rw [hEq] at hmono
  exact lt_irrefl _ hmono

/-- A successful binary-search step returns an index holding the searched
key. -/
theorem bsearchGo_found {α : Type} (key : α → ℕ) :
    ∀ (fuel : ℕ) (l : List α) (t i : ℕ),
      bsearchGo key fuel l t = some i → ∃ a, l.get? i = some a ∧ key a = t := by
  intro fuel
  induction fuel with
  | zero =>
    intro l t i h
    simp [bsearchGo] at h
  | succ n ih =>
    intro l t i h
    rw [bsearchGo] at h
    split at h
    · simp at h
    next a ha =>
      split at h
      next hkey =>
        injection h with h2
        subst h2
        exact ⟨a, ha, hkey⟩
      next hkey =>
        split at h
        next hlt2 =>
          rw [Option.map_eq_some'] at h
          obtain ⟨j, hj, hji⟩ := h
          obtain ⟨b, hb, hkb⟩ := ih (l.drop (l.length / 2 + 1)) t j hj
          refine ⟨b, ?_, hkb⟩
          rw [← hji, ← List.get?_drop]
          exact hb
        next =>
          obtain ⟨b, hb, hkb⟩ := ih (l.take (l.length / 2)) t i h
          obtain ⟨hilen, -⟩ := List.get?_eq_some.mp hb
          have hi2 : i < l.length / 2 := by
            simp only [List.length_take] at hilen; omega
          rw [List.get?_take hi2] at hb
          exact ⟨b, hb, hkb⟩

/-- A successful binary search returns an index holding the searched key. -/
theorem bsearchBy_found {α : Type} (key : α → ℕ) (l : List α) (t i : ℕ)
    (h : bsearchBy key l t = some i) : ∃ a, l.get? i = some a ∧ key a = t :=
  bsearchGo_found key l.length l t i h

/-- The add-edge attempt loop only ever appends to the edge list. -/
theorem addEdgeLoop_prefix (o : MutOracle) (pairs : List (ℕ × ℕ))
    (sp ep : List Node) :
    ∀ (k ai : ℕ) (es : List GenomeEdge) (c : InnovNumber)
      (r : List GenomeEdge × InnovNumber),
      addEdgeLoop o pairs sp ep k ai es c = some r → es <+: r.1 := by
  intro k
  induction k with
  | zero =>
    intro ai es c r h
    rw [addEdgeLoop] at h
    injection h with h2
    rw [← h2]
  | succ k ih =>
    intro ai es c r h
    rw [addEdgeLoop] at h
    obtain ⟨ns, -, h⟩ := Option.bind_eq_some.mp h
    obtain ⟨ne, -, h⟩ := Option.bind_eq_some.mp h
    split at h
    · exact ih (ai + 1) es c r h
    · injection h with h2
      rw [← h2]
      exact ⟨_, rfl⟩

/-- The add-edge branch only ever appends to the edge list. -/
theorem addEdge_prefix (o : MutOracle) (mi : ℕ) (nl : NodeList)
    (es : List GenomeEdge) (c : InnovNumber)
    (r : List GenomeEdge × InnovNumber)
    (h : addEdge o mi nl es c = some r) : es <+: r.1 := by
  simp only [addEdge] at h
  split at h
  · exact addEdgeLoop_prefix o _ _ _ _ 0 es c r h
  · injection h with h2
    rw [← h2]

/-- C7: whenever `mutate` succeeds with the add-node draw triggered, the
new hidden node appended to the hidden list sits at the exact rational
midpoint of the levels of the split edge's endpoints, its id is the freshly
drawn innovation number, and the split edge ends up disabled in the child. -/
theorem add_node_midpoint_and_disable
    (g : GaussianMutation) (o : MutOracle) (genome : Genome) (c : InnovNumber)
    (g2 : Genome) (c2 : InnovNumber)
    (htrig : o.newNodeB = true)
    (hsucc : mutate g o genome c = some (g2, c2)) :
    ∃ (i : ℕ) (e : GenomeEdge) (ns ne : Node),
      i = o.pickEdgeU % (phase2 o g.coeff genome.genome_list.edge_list).length ∧
      (phase2 o g.coeff genome.genome_list.edge_list).get? i = some e ∧
      ns.node_id = e.in_node ∧ ne.node_id = e.out_node ∧
      (∃ si, bsearchBy Node.node_id
          ((phase1 o genome.node_list).input ++ (phase1 o genome.node_list).output
            ++ (phase1 o genome.node_list).hidden) e.in_node = some si ∧
        ((phase1 o genome.node_list).input ++ (phase1 o genome.node_list).output
            ++ (phase1 o genome.node_list).hidden).get? si = some ns) ∧
      (∃ ei, bsearchBy Node.node_id
          ((phase1 o genome.node_list).input ++ (phase1 o genome.node_list).output
            ++ (phase1 o genome.node_list).hidden) e.out_node = some ei ∧
        ((phase1 o genome.node_list).input ++ (phase1 o genome.node_list).output
            ++ (phase1 o genome.node_list).hidden).get? ei = some ne) ∧
      g2.node_list.hidden = (phase1 o genome.node_list).hidden ++
        [{ node_id := c.counter
           level := (ns.level + ne.level) / 2
           config := ⟨o.newNodeAgg, Clamp.default, o.newNodeAct⟩ }] ∧
      g2.genome_list.edge_list.get? i = some { e with enabled := false } := by
  have hparts : ∃ (r1 : NodeList × List GenomeEdge × InnovNumber)
      (es3 : List GenomeEdge),
      addNode o (phase1 o genome.node_list)
        (phase2 o g.coeff genome.genome_list.edge_list) c = some r1 ∧
      r1.2.1 <+: es3 ∧ g2.node_list = r1.1 ∧
      g2.genome_list.edge_list = es3 := by
    cases hob : o.newEdgeB with
    | false =>
      simp only [mutate, htrig, hob, if_true, Bool.false_eq_true, if_false, bind,
        Option.pure_def, Option.some_bind, Option.bind_eq_some, Option.some.injEq,
        Prod.mk.injEq] at hsucc
      obtain ⟨r1, hr1, hg, -⟩ := hsucc
      exact ⟨r1, r1.2.1, hr1, List.prefix_refl _, by rw [← hg], by rw [← hg]⟩
    | true =>
      simp only [mutate, htrig, hob, if_true, bind, Option.pure_def,
        Option.some_bind, Option.bind_eq_some, Option.some.injEq,
        Prod.mk.injEq] at hsucc
      obtain ⟨r1, hr1, r2, hr2, hg, -⟩ := hsucc
      exact ⟨r1, r2.1, hr1,
        addEdge_prefix o g.max_iteration r1.1 r1.2.1 r1.2.2 r2 hr2,
        by rw [← hg], by rw [← hg]⟩
  obtain ⟨r1, es3, hr1, hpre0, hgnode, hgedges⟩ := hparts
  simp only [addNode, bind, Option.bind_eq_some] at hr1
  split at hr1
  · exact absurd hr1 (by simp)
  next hne =>
    obtain ⟨e, he, hr1⟩ := Option.bind_eq_some.mp hr1
    obtain ⟨si, hsi, hr1⟩ := Option.bind_eq_some.mp hr1
    obtain ⟨ei, hei, hr1⟩ := Option.bind_eq_some.mp hr1
    obtain ⟨ns, hns, hr1⟩ := Option.bind_eq_some.mp hr1
    obtain ⟨ne, hnee, hr1⟩ := Option.bind_eq_some.mp hr1
    rw [Option.pure_def] at hr1
    injection hr1 with hr1
    obtain ⟨a1, ha1, hka1⟩ := bsearchBy_found Node.node_id _ _ _ hsi
    obtain ⟨a2, ha2, hka2⟩ := bsearchBy_found Node.node_id _ _ _ hei
    have hns' : ns = a1 := by rw [hns] at ha1; exact Option.some.inj ha1
    have hne' : ne = a2 := by rw [hnee] at ha2; exact Option.some.inj ha2
    subst hns'; subst hne'
    refine ⟨o.pickEdgeU % (phase2 o g.coeff genome.genome_list.edge_list).length,
      e, ns, ne, rfl, he, hka1, hka2, ⟨si, hsi, hns⟩, ⟨ei, hei, hnee⟩, ?_, ?_⟩
    · rw [hgnode, ← hr1]
      simp [InnovNumber.next]
    · rw [hgedges]
      rw [← hr1] at hpre0
      obtain ⟨tl, htl⟩ := hpre0
      have hilt : o.pickEdgeU % (phase2 o g.coeff genome.genome_list.edge_list).length
          < (phase2 o g.coeff genome.genome_list.edge_list).length := by
        refine Nat.mod_lt _ ?_
        cases hp2 : phase2 o g.coeff genome.genome_list.edge_list with
        | nil => rw [hp2] at hne; simp at hne
        | cons hd tlx => simp
      rw [← htl]
      rw [List.get?_append (by
        simp only [List.length_append, List.length_set]
        omega)]
      rw [List.get?_append (by simp only [List.length_set]; omega)]
      rw [List.get?_set_eq, he]
      rfl

set_option maxRecDepth 8000 in
/-- Concrete evaluation of `mutate` splitting `c7Genome`'s single edge. -/
theorem c7_mutate_eval :
    mutate ⟨1, 10⟩ c7Oracle c7Genome ⟨5⟩ = some (c7Result, ⟨8⟩) := rfl

/-- Witness for C7 at the concrete split of `c7Genome`'s edge. -/
theorem add_node_midpoint_and_disable_witness :
    c7Oracle.newNodeB = true ∧
    mutate ⟨1, 10⟩ c7Oracle c7Genome ⟨5⟩ = some (c7Result, ⟨8⟩) ∧
    ∃ (i : ℕ) (e : GenomeEdge) (ns ne : Node),
      i = c7Oracle.pickEdgeU % (phase2 c7Oracle 1 c7Genome.genome_list.edge_list).length ∧
      (phase2 c7Oracle 1 c7Genome.genome_list.edge_list).get? i = some e ∧
      ns.node_id = e.in_node ∧ ne.node_id = e.out_node ∧
      (∃ si, bsearchBy Node.node_id
          ((phase1 c7Oracle c7Genome.node_list).input ++
            (phase1 c7Oracle c7Genome.node_list).output
            ++ (phase1 c7Oracle c7Genome.node_list).hidden) e.in_node = some si ∧
        ((phase1 c7Oracle c7Genome.node_list).input ++
            (phase1 c7Oracle c7Genome.node_list).output
            ++ (phase1 c7Oracle c7Genome.node_list).hidden).get? si = some ns) ∧
      (∃ ei, bsearchBy Node.node_id
          ((phase1 c7Oracle c7Genome.node_list).input ++
            (phase1 c7Oracle c7Genome.node_list).output
            ++ (phase1 c7Oracle c7Genome.node_list).hidden) e.out_node = some ei ∧
        ((phase1 c7Oracle c7Genome.node_list).input ++
            (phase1 c7Oracle c7Genome.node_list).output
            ++ (phase1 c7Oracle c7Genome.node_list).hidden).get? ei = some ne) ∧
      c7Result.node_list.hidden = (phase1 c7Oracle c7Genome.node_list).hidden ++
        [{ node_id := (5 : ℕ)
           level := (ns.level + ne.level) / 2
           config := ⟨c7Oracle.newNodeAgg, Clamp.default, c7Oracle.newNodeAct⟩ }] ∧
      c7Result.genome_list.edge_list.get? i = some { e with enabled := false } :=
  ⟨rfl, c7_mutate_eval,
   add_node_midpoint_and_disable ⟨1, 10⟩ c7Oracle c7Genome ⟨5⟩ c7Result ⟨8⟩ rfl
     c7_mutate_eval⟩

/-- `foldr max` distributes over append. -/
theorem foldr_max_append (a b : List ℕ) :
    (a ++ b).foldr max 0 = max (a.foldr max 0) (b.foldr max 0) := by
  induction a with
  | nil => simp
  | cons x xs ih => simp only [List.cons_append, List.foldr_cons, ih, Nat.max_assoc]

/-- `foldr max 0` is bounded by any bound on the elements. -/
theorem foldr_max_le (l : List ℕ) (b : ℕ) (h : ∀ x ∈ l, x ≤ b) :
    l.foldr max 0 ≤ b := by
  induction l with
  | nil => simp
  | cons x xs ih =>
    have h1 := h x (by simp)
    have h2 := ih (fun y hy => h y (by simp [hy]))
    simp only [List.foldr_cons]
    omega

/-- Per-edge mutation does not touch the innovation number. -/
theorem mutateEdgeGene_innov (o : MutOracle) (coeff : ℝ) (i : ℕ) (e : GenomeEdge) :
    (mutateEdgeGene o coeff i e).innov_number = e.innov_number := by
  simp only [mutateEdgeGene]
  split_ifs <;> rfl

/-- The per-edge phase preserves the stream of innovation numbers. -/
theorem mutateEdges_innov (o : MutOracle) (coeff : ℝ) :
    ∀ (i : ℕ) (es : List GenomeEdge),
      (mutateEdges o coeff i es).map (·.innov_number) = es.map (·.innov_number) := by
  intro i es
  induction es generalizing i with
  | nil => rfl
  | cons e rest ih =>
    simp only [mutateEdges, List.map_cons, mutateEdgeGene_innov, ih]

/-- Setting an index to the value it already holds is the identity. -/
theorem set_get_self {α : Type} :
    ∀ (l : List α) (i : ℕ) (a : α), l.get? i = some a → l.set i a = l := by
  intro l
  induction l with
  | nil => intro i a h; simp at h
  | cons x xs ih =>
    intro i a h
    cases i with
    | zero =>
      simp only [List.get?_cons_zero, Option.some.injEq] at h
      simp [h]
    | succ n =>
      simp only [List.get?_cons_succ] at h
      simp [List.set, ih n a h]

/-- The add-node branch appends exactly the two replacement edges' innovation
numbers and burns three counter values. -/
theorem addNode_innov (o : MutOracle) (nl : NodeList) (es : List GenomeEdge)
    (c : InnovNumber) (r : NodeList × List GenomeEdge × InnovNumber)
    (h : addNode o nl es c = some r) :
    r.2.1.map (·.innov_number) =
      es.map (·.innov_number) ++ [c.counter + 1, c.counter + 2] ∧
    r.2.2 = ⟨c.counter + 3⟩ := by
  simp only [addNode, bind, Option.bind_eq_some] at h
  split at h
  · exact absurd h (by simp)
  next hne =>
    obtain ⟨e, he, h⟩ := Option.bind_eq_some.mp h
    obtain ⟨si, hsi, h⟩ := Option.bind_eq_some.mp h
    obtain ⟨ei, hei, h⟩ := Option.bind_eq_some.mp h
    obtain ⟨ns, hns, h⟩ := Option.bind_eq_some.mp h
    obtain ⟨ne, hnee, h⟩ := Option.bind_eq_some.mp h
    rw [Option.pure_def] at h
    injection h with h2
    rw [← h2]
    have h3 : (es.set (o.pickEdgeU % es.length) { e with enabled := false }).map
        (·.innov_number) = es.map (·.innov_number) := by
      rw [List.map_set]
      exact set_get_self _ _ _ (by rw [List.get?_map, he]; rfl)
    constructor
    · simp [List.map_append, h3, InnovNumber.next]
    · rfl

/-- The add-edge attempt loop either leaves the list and counter alone or
appends one edge carrying the current counter value and burns one number. -/
theorem addEdgeLoop_innov (o : MutOracle) (pairs : List (ℕ × ℕ))
    (sp ep : List Node) :
    ∀ (k ai : ℕ) (es : List GenomeEdge) (c : InnovNumber)
      (r : List GenomeEdge × InnovNumber),
      addEdgeLoop o pairs sp ep k ai es c = some r →
      r = (es, c) ∨
      ∃ ed : GenomeEdge, r.1 = es ++ [ed] ∧ ed.innov_number = c.counter ∧
        r.2 = ⟨c.counter + 1⟩ := by
  intro k
  induction k with
  | zero =>
    intro ai es c r h
    rw [addEdgeLoop] at h
    injection h with h2
    exact Or.inl h2.symm
  | succ k ih =>
    intro ai es c r h
    rw [addEdgeLoop] at h
    obtain ⟨ns, -, h⟩ := Option.bind_eq_some.mp h
    obtain ⟨ne, -, h⟩ := Option.bind_eq_some.mp h
    split at h
    · exact ih _ es c r h
    · injection h with h2
      exact Or.inr ⟨⟨c.counter, ns.node_id, ne.node_id,
        2 * o.attemptWU ai - 1, o.attemptEnabledB ai⟩,
        by rw [← h2]; rfl, rfl, by rw [← h2]; rfl⟩

/-- The add-edge branch either leaves the list and counter alone or appends
one edge carrying the current counter value and burns one number. -/
theorem addEdge_innov (o : MutOracle) (mi : ℕ) (nl : NodeList)
    (es : List GenomeEdge) (c : InnovNumber)
    (r : List GenomeEdge × InnovNumber) (h : addEdge o mi nl es c = some r) :
    r = (es, c) ∨
    ∃ ed : GenomeEdge, r.1 = es ++ [ed] ∧ ed.innov_number = c.counter ∧
      r.2 = ⟨c.counter + 1⟩ := by
  simp only [addEdge] at h
  split at h
  · exact addEdgeLoop_innov o _ _ _ _ 0 es c r h
  · injection h with h2
    exact Or.inl h2.symm

/-- One successful `mutate` call keeps all edge innovation numbers below the
outgoing counter, advances the counter by at most 4, and never lowers the
maximum innovation number. -/
theorem mutate_step_bounds (g : GaussianMutation) (o : MutOracle)
    (genome : Genome) (c : InnovNumber) (r : Genome × InnovNumber)
    (h : mutate g o genome c = some r)
    (hinv : ∀ e ∈ genome.genome_list.edge_list, e.innov_number < c.counter) :
    (∀ e ∈ r.1.genome_list.edge_list, e.innov_number < r.2.counter) ∧
    c.counter ≤ r.2.counter ∧ r.2.counter ≤ c.counter + 4 ∧
    maxInnov genome ≤ maxInnov r.1 := by
  have hform : ∃ tail : List ℕ,
      r.1.genome_list.edge_list.map (·.innov_number) =
        genome.genome_list.edge_list.map (·.innov_number) ++ tail ∧
      (∀ x ∈ tail, c.counter ≤ x ∧ x < r.2.counter) ∧
      c.counter ≤ r.2.counter ∧ r.2.counter ≤ c.counter + 4 := by
    cases hon : o.newNodeB with
    | false =>
      cases hoe : o.newEdgeB with
      | false =>
        simp only [mutate, hon, hoe, Bool.false_eq_true, if_false, bind,
          Option.pure_def, Option.some_bind, Option.some.injEq] at h
        subst h
        refine ⟨[], ?_, by simp, le_rfl, Nat.le_add_right _ _⟩
        dsimp only
        simp [phase2, mutateEdges_innov]
      | true =>
        simp only [mutate, hon, hoe, Bool.false_eq_true, if_false, if_true, bind,
          Option.pure_def, Option.some_bind, Option.bind_eq_some,
          Option.some.injEq] at h
        obtain ⟨r2, hr2, hpr⟩ := h
        subst hpr
        rcases addEdge_innov _ _ _ _ _ _ hr2 with heq | ⟨ed, hc1, hc2, hc3⟩
        · have h21 : r2.1 = phase2 o g.coeff genome.genome_list.edge_list := by
            rw [heq]
          have h22 : r2.2.counter = c.counter := by rw [heq]
          refine ⟨[], ?_, by simp, ?_, ?_⟩
          · dsimp only
            rw [h21]
            simp [phase2, mutateEdges_innov]
          · dsimp only; simp only [h22]; omega
          · dsimp only; simp only [h22]; omega
        · have h22 : r2.2.counter = c.counter + 1 := by rw [hc3]
          refine ⟨[ed.innov_number], ?_, ?_, ?_, ?_⟩
          · dsimp only
            rw [hc1, List.map_append]
            simp [phase2, mutateEdges_innov]
          · intro x hx
            simp only [List.mem_singleton] at hx
            subst hx
            dsimp only
            simp only [hc2, h22]
            omega
          · dsimp only; simp only [h22]; omega
          · dsimp only; simp only [h22]; omega
    | true =>
      cases hoe : o.newEdgeB with
      | false =>
        simp only [mutate, hon, hoe, if_true, Bool.false_eq_true, if_false, bind,
          Option.pure_def, Option.some_bind, Option.bind_eq_some,
          Option.some.injEq] at h
        obtain ⟨r1, hr1, hpr⟩ := h
        subst hpr
        obtain ⟨hmap1, hcnt1⟩ := addNode_innov _ _ _ _ _ hr1
        have h22 : r1.2.2.counter = c.counter + 3 := by rw [hcnt1]
        refine ⟨[c.counter + 1, c.counter + 2], ?_, ?_, ?_, ?_⟩
        · dsimp only
          rw [hmap1]
          simp [phase2, mutateEdges_innov]
        · intro x hx
          dsimp only
          simp only [h22]
          simp only [List.mem_cons, List.not_mem_nil, or_false] at hx
          rcases hx with rfl | rfl <;> omega
        · dsimp only; simp only [h22]; omega
        · dsimp only; simp only [h22]; omega
      | true =>
        simp only [mutate, hon, hoe, if_true, bind, Option.pure_def,
          Option.some_bind, Option.bind_eq_some, Option.some.injEq] at h
        obtain ⟨r1, hr1, r2, hr2, hpr⟩ := h
        subst hpr
        obtain ⟨hmap1, hcnt1⟩ := addNode_innov _ _ _ _ _ hr1
        rcases addEdge_innov _ _ _ _ _ _ hr2 with heq | ⟨ed, hc1, hc2, hc3⟩
        · have h21 : r2.1 = r1.2.1 := by rw [heq]
          have h22 : r2.2.counter = c.counter + 3 := by
            rw [heq]
            dsimp only
            rw [hcnt1]
          refine ⟨[c.counter + 1, c.counter + 2], ?_, ?_, ?_, ?_⟩
          · dsimp only
            rw [h21, hmap1]
            simp [phase2, mutateEdges_innov]
          · intro x hx
            dsimp only
            simp only [h22]
            simp only [List.mem_cons, List.not_mem_nil, or_false] at hx
            rcases hx with rfl | rfl <;> omega
          · dsimp only; simp only [h22]; omega
          · dsimp only; simp only [h22]; omega
        · have hed : ed.innov_number = c.counter + 3 := by rw [hc2, hcnt1]
          have h22 : r2.2.counter = c.counter + 4 := by rw [hc3, hcnt1]
          refine ⟨[c.counter + 1, c.counter + 2, c.counter + 3], ?_, ?_, ?_, ?_⟩
          · dsimp only
            rw [hc1, List.map_append, hmap1]
            simp [phase2, mutateEdges_innov, hed]
          · intro x hx
            dsimp only
            simp only [h22]
            simp only [List.mem_cons, List.not_mem_nil, or_false] at hx
            rcases hx with rfl | rfl | rfl <;> omega
          · dsimp only; simp only [h22]; omega
          · dsimp only; simp only [h22]; omega
  obtain ⟨tail, hmap, htail, hle1, hle2⟩ := hform
  refine ⟨?_, hle1, hle2, ?_⟩
  · intro e he
    have hx : e.innov_number ∈ r.1.genome_list.edge_list.map (·.innov_number) :=
      List.mem_map_of_mem _ he
    rw [hmap] at hx
    rcases List.mem_append.mp hx with hx | hx
    · obtain ⟨e0, he0, heq0⟩ := List.mem_map.mp hx
      have h0 := hinv e0 he0
      omega
    · exact (htail _ hx).2
  · unfold maxInnov
    rw [hmap, foldr_max_append]
    exact le_max_left _ _

/-- C6 (amended): over any sequence of K successful `mutate` calls whose
counter starts above every existing innovation number, the maximum innovation
number of the genome is non-decreasing and stays below
`initial_counter + 4·K` (one call can burn up to 4 numbers: 3 for add-node
plus 1 for add-edge). -/
theorem mutation_innovation_monotone (g : GaussianMutation) :
    ∀ (os : List MutOracle) (genome : Genome) (c : InnovNumber)
      (g2 : Genome) (c2 : InnovNumber),
      (∀ e ∈ genome.genome_list.edge_list, e.innov_number < c.counter) →
      mutateSeq g os genome c = some (g2, c2) →
      maxInnov genome ≤ maxInnov g2 ∧
      (∀ e ∈ g2.genome_list.edge_list, e.innov_number < c2.counter) ∧
      c.counter ≤ c2.counter ∧ c2.counter ≤ c.counter + 4 * os.length ∧
      maxInnov g2 ≤ c.counter + 4 * os.length := by
  intro os
  induction os with
  | nil =>
    intro genome c g2 c2 hinv hseq
    rw [mutateSeq] at hseq
    injection hseq with hseq
    injection hseq with hg hc
    subst hg; subst hc
    refine ⟨le_rfl, hinv, le_rfl, by simp, ?_⟩
    simp only [List.length_nil, Nat.mul_zero, Nat.add_zero]
    unfold maxInnov
    refine foldr_max_le _ _ ?_
    intro x hx
    obtain ⟨e0, he0, heq0⟩ := List.mem_map.mp hx
    have h0 := hinv e0 he0
    omega
  | cons o os ih =>
    intro genome c g2 c2 hinv hseq
    rw [mutateSeq] at hseq
    obtain ⟨r, hr, hrest⟩ := Option.bind_eq_some.mp hseq
    obtain ⟨hstep1, hstep2, hstep3, hstep4⟩ :=
      mutate_step_bounds g o genome c r hr hinv
    obtain ⟨ih1, ih2, ih3, ih4, ih5⟩ := ih r.1 r.2 g2 c2 hstep1 hrest
    refine ⟨le_trans hstep4 ih1, ih2, by omega, ?_, ?_⟩
    · simp only [List.length_cons]
      omega
    · simp only [List.length_cons]
      omega

/-- Witness for C6 (amended): one concrete add-node call on `c7Genome`. -/
theorem mutation_innovation_monotone_witness :
    (∀ e ∈ c7Genome.genome_list.edge_list,
      e.innov_number < (⟨5⟩ : InnovNumber).counter) ∧
    mutateSeq ⟨1, 10⟩ [c7Oracle] c7Genome ⟨5⟩ = some (c7Result, ⟨8⟩) ∧
    (maxInnov c7Genome ≤ maxInnov c7Result ∧
     (∀ e ∈ c7Result.genome_list.edge_list,
       e.innov_number < (⟨8⟩ : InnovNumber).counter) ∧
     (⟨5⟩ : InnovNumber).counter ≤ (⟨8⟩ : InnovNumber).counter ∧
     (⟨8⟩ : InnovNumber).counter ≤ (⟨5⟩ : InnovNumber).counter +
       4 * ([c7Oracle] : List MutOracle).length ∧
     maxInnov c7Result ≤ (⟨5⟩ : InnovNumber).counter +
       4 * ([c7Oracle] : List MutOracle).length) :=
  ⟨by simp [c7Genome],
   by rw [mutateSeq, c7_mutate_eval]; rfl,
   mutation_innovation_monotone ⟨1, 10⟩ [c7Oracle] c7Genome ⟨5⟩ c7Result ⟨8⟩
     (by simp [c7Genome])
     (by rw [mutateSeq, c7_mutate_eval]; rfl)⟩

/-- `attemptCount` is at least one whenever `max_iteration` is: the `+ 2`
after the saturating cast floors the retry count at 2. -/
theorem attemptCount_pos (len total maxIter : ℕ) (h : 1 ≤ maxIter) :
    1 ≤ attemptCount len total maxIter := by
  simp only [attemptCount]
  exact le_min (by omega) h

/-- First counterexample call, add-edge branch: the single needed attempt
proposes the fresh pair (1, 2) and succeeds, burning innovation number 5. -/
theorem c6_addEdge1 : addEdge c6Oracle1 10 c6NL1 c6ES1 ⟨5⟩ =
    some (c6ES1 ++ [⟨5, 1, 2, 2 * 0 - 1, false⟩], ⟨6⟩) := by
  obtain ⟨k, hk⟩ : ∃ k, attemptCount 3 4 10 = k + 1 :=
    ⟨attemptCount 3 4 10 - 1, by
      have h := attemptCount_pos 3 4 10 (by norm_num)
      omega⟩
  have h0 : addEdge c6Oracle1 10 c6NL1 c6ES1 ⟨5⟩ =
      addEdgeLoop c6Oracle1 (c6ES1.map fun e => (e.in_node, e.out_node))
        (c6NL1.input ++ c6NL1.hidden ++ c6NL1.output)
        (c6NL1.hidden ++ c6NL1.output)
        (attemptCount 3 4 10) 0 c6ES1 ⟨5⟩ := rfl
  rw [h0, hk]
  rfl

/-- Second counterexample call, add-edge branch: the attempt proposes the
fresh pair (1, 6) and succeeds, burning innovation number 9. -/
theorem c6_addEdge2 : addEdge c6Oracle2 10 c6NL2 c6ES2 ⟨9⟩ =
    some (c6ES2 ++ [⟨9, 1, 6, 2 * 0 - 1, false⟩], ⟨10⟩) := by
  obtain ⟨k, hk⟩ : ∃ k, attemptCount 6 9 10 = k + 1 :=
    ⟨attemptCount 6 9 10 - 1, by
      have h := attemptCount_pos 6 9 10 (by norm_num)
      omega⟩
  have h0 : addEdge c6Oracle2 10 c6NL2 c6ES2 ⟨9⟩ =
      addEdgeLoop c6Oracle2 (c6ES2.map fun e => (e.in_node, e.out_node))
        (c6NL2.input ++ c6NL2.hidden ++ c6NL2.output)
        (c6NL2.hidden ++ c6NL2.output)
        (attemptCount 6 9 10) 0 c6ES2 ⟨9⟩ := rfl
  rw [h0, hk]
  rfl

/-- First counterexample call: add-node splits the only edge (numbers 2, 3, 4)
and add-edge appends a fresh edge (number 5), so the counter moves 2 → 6. -/
theorem c6_mutate1 : mutate ⟨1, 10⟩ c6Oracle1 c7Genome ⟨2⟩ = some (c6G1, ⟨6⟩) := by
  have h1 : mutate ⟨1, 10⟩ c6Oracle1 c7Genome ⟨2⟩ =
      (addEdge c6Oracle1 10 c6NL1 c6ES1 ⟨5⟩).bind
        (fun r2 => some (⟨c6NL1, ⟨r2.1⟩⟩, r2.2)) := rfl
  rw [h1, c6_addEdge1]
  rfl

/-- Second counterexample call: add-node splits edge 3 (numbers 6, 7, 8) and
add-edge appends a fresh edge (number 9), so the counter moves 6 → 10. -/
theorem c6_mutate2 : mutate ⟨1, 10⟩ c6Oracle2 c6G1 ⟨6⟩ = some (c6G2, ⟨10⟩) := by
  have h1 : mutate ⟨1, 10⟩ c6Oracle2 c6G1 ⟨6⟩ =
      (addEdge c6Oracle2 10 c6NL2 c6ES2 ⟨9⟩).bind
        (fun r2 => some (⟨c6NL2, ⟨r2.1⟩⟩, r2.2)) := rfl
  rw [h1, c6_addEdge2]
  rfl

/-- The two-call counterexample run: from `c7Genome` with counter 2,
`mutateSeq` under the two oracles produces `c6G2` with counter 10. -/
theorem c6_seq_eval :
    mutateSeq ⟨1, 10⟩ [c6Oracle1, c6Oracle2] c7Genome ⟨2⟩ =
      some (c6G2, ⟨10⟩) := by
  rw [mutateSeq, c6_mutate1]
  show mutateSeq ⟨1, 10⟩ [c6Oracle2] c6G1 ⟨6⟩ = some (c6G2, ⟨10⟩)
  rw [mutateSeq, c6_mutate2]
  rfl

/-- C6 (counterexample): the claimed bound `initial_counter + 3·K` on the
maximum innovation number after K mutations fails, because one `mutate` call
can burn four numbers (three for add-node, one for add-edge): two such calls
on a one-edge genome with counter 2 reach innovation number 9 > 2 + 3·2. -/
theorem mutation_innovation_3K_counterexample :
    ¬ (∀ (g : GaussianMutation) (os : List MutOracle) (genome : Genome)
        (c : InnovNumber) (g2 : Genome) (c2 : InnovNumber),
        (∀ e ∈ genome.genome_list.edge_list, e.innov_number < c.counter) →
        mutateSeq g os genome c = some (g2, c2) →
        maxInnov g2 ≤ c.counter + 3 * os.length) := by
  intro hclaim
  have h := hclaim ⟨1, 10⟩ [c6Oracle1, c6Oracle2] c7Genome ⟨2⟩ c6G2 ⟨10⟩
    (by simp [c7Genome]) c6_seq_eval
  have hmax : maxInnov c6G2 = 9 := rfl
  rw [hmax] at h
  simp only [List.length_cons, List.length_nil] at h
  omega

/-- `innovSet` of a cons. -/
theorem innovSet_cons (e : GenomeEdge) (l : List GenomeEdge) :
    innovSet (e :: l) = insert e.innov_number (innovSet l) := by
  simp [innovSet]

/-- The edge merge succeeds and its innovation set is the union of the
inputs' innovation sets (fuelled induction over the total length). -/
theorem mergeEdges_innov_union_aux :
    ∀ (n : ℕ) (la lb : List GenomeEdge) (s : RngState) (ff fs : ℝ),
      la.length + lb.length ≤ n →
      ∃ m s2, mergeBy edgeCmp GenomeEdge.crossover s ff fs la lb = some (m, s2) ∧
        innovSet m = innovSet la ∪ innovSet lb := by
  intro n
  induction n with
  | zero =>
    intro la lb s ff fs hlen
    have hla : la = [] := by cases la <;> simp_all
    have hlb : lb = [] := by cases lb <;> simp_all
    subst hla; subst hlb
    exact ⟨[], s, by simp [mergeBy], by simp [innovSet]⟩
  | succ n ih =>
    intro la lb s ff fs hlen
    match la, lb with
    | [], ys => exact ⟨ys, s, by simp [mergeBy], by simp [innovSet]⟩
    | x :: xs, [] => exact ⟨x :: xs, s, by simp [mergeBy], by simp [innovSet]⟩
    | x :: xs, y :: ys =>
      rcases Nat.lt_trichotomy x.innov_number y.innov_number with hlt | heq | hgt
      · have hcmp : edgeCmp x y = .lt := by
          simp [edgeCmp, Nat.compare_eq_lt, hlt]
        obtain ⟨m, s2, hm, hset⟩ := ih xs (y :: ys) s ff fs
          (by simp only [List.length_cons] at hlen ⊢; omega)
        refine ⟨x :: m, s2, ?_, ?_⟩
        · simp [mergeBy, hcmp, hm]
        · ext k
          have hk := Finset.ext_iff.mp hset k
          simp only [innovSet_cons, Finset.mem_insert, Finset.mem_union] at hk ⊢
          tauto
      · have hcmp : edgeCmp x y = .eq := by
          simp [edgeCmp, Nat.compare_eq_eq, heq]
        obtain ⟨m, s2, hm, hset⟩ := ih xs ys ⟨s.u, s.idx + 1 + 1⟩ ff fs
          (by simp only [List.length_cons] at hlen ⊢; omega)
        refine ⟨{ innov_number := x.innov_number, in_node := x.in_node
                  out_node := x.out_node
                  weight := (CrossoverMisc.default.f32_crossover s x.weight ff
                    y.weight fs).1
                  enabled := (CrossoverMisc.default.bernoulli_crossover
                    (CrossoverMisc.default.f32_crossover s x.weight ff
                      y.weight fs).2
                    x.enabled ff y.enabled fs).1 } :: m, s2, ?_, ?_⟩
        · simp [mergeBy, hcmp, GenomeEdge.crossover, heq,
            CrossoverMisc.f32_crossover, CrossoverMisc.bernoulli_crossover,
            RngState.next, hm]
        · ext k
          have hk := Finset.ext_iff.mp hset k
          simp only [innovSet_cons, Finset.mem_insert, Finset.mem_union, heq] at hk ⊢
          tauto
      · have hcmp : edgeCmp x y = .gt := by
          simp [edgeCmp, Nat.compare_eq_gt, hgt]
        obtain ⟨m, s2, hm, hset⟩ := ih (x :: xs) ys s ff fs
          (by simp only [List.length_cons] at hlen ⊢; omega)
        refine ⟨y :: m, s2, ?_, ?_⟩
        · simp [mergeBy, hcmp, hm]
        · ext k
          have hk := Finset.ext_iff.mp hset k
          simp only [innovSet_cons, Finset.mem_insert, Finset.mem_union] at hk ⊢
          tauto

/-- C4: for parents with sorted, duplicate-free innovation streams, the merged
child edge list exists (no assertion fires) and its set of innovation numbers
is exactly the union of the parents' innovation numbers. -/
theorem crossover_innovation_union (s : RngState) (fit_fst fit_snd : ℝ)
    (la lb : List GenomeEdge)
    (_hsorted_a : la.Pairwise (fun a b => a.innov_number < b.innov_number))
    (_hsorted_b : lb.Pairwise (fun a b => a.innov_number < b.innov_number)) :
    ∃ m s2, mergeEdges s fit_fst fit_snd la lb = some (m, s2) ∧
      innovSet m = innovSet la ∪ innovSet lb :=
  mergeEdges_innov_union_aux (la.length + lb.length) la lb s fit_fst fit_snd le_rfl

/-- Witness for C4 at two concrete sorted parents. -/
theorem crossover_innovation_union_witness :
    ([⟨0, 0, 2, 1, true⟩, ⟨2, 1, 2, 1, true⟩] : List GenomeEdge).Pairwise
      (fun a b => a.innov_number < b.innov_number) ∧
    ([⟨1, 0, 3, 1, false⟩] : List GenomeEdge).Pairwise
      (fun a b => a.innov_number < b.innov_number) ∧
    ∃ m s2, mergeEdges halfRng 1 1
        [⟨0, 0, 2, 1, true⟩, ⟨2, 1, 2, 1, true⟩] [⟨1, 0, 3, 1, false⟩] =
        some (m, s2) ∧
      innovSet m = innovSet [⟨0, 0, 2, 1, true⟩, ⟨2, 1, 2, 1, true⟩] ∪
        innovSet [⟨1, 0, 3, 1, false⟩] :=
  ⟨by simp, by simp,
   crossover_innovation_union halfRng 1 1 _ _ (by simp) (by simp)⟩

/-- The symbolic output value of the C2 network evaluates to `3/20`. -/
theorem c2OutVal_eq : c2OutVal = 3 / 20 := by
  have h1 : Aggregation.apply .Mean [1/10 * (1/2 : ℝ), 1/2 * (1/2 : ℝ)] + 0 = 3/20 := by
    simp only [Aggregation.apply, List.foldl]
    norm_num
  rw [c2OutVal, h1]
  simp only [Activation.activate, Clamp.default, Clamp.activate]
  rw [max_eq_left (by norm_num : (0 : ℝ) ≤ 3/20)]
  rw [min_eq_left (by norm_num : (3/20 : ℝ) ≤ 5)]
  rw [max_eq_left (by norm_num : (-5 : ℝ) ≤ 3/20)]

/-- C2: on the literal network with inputs {0, 1} at level 1, outputs
{2, 3, 4, 5} at level 100, all eight input→output edges enabled with weight
1/2 and default node configuration, a forward pass on `(1/10, 1/2)` returns
exactly `(3/20, 3/20, 3/20, 3/20)` (that is, each output is
`Relu(Mean(1/10·1/2, 1/2·1/2)) = 3/20 = 0.15`). -/
theorem forward_two_inputs_mean_relu :
    ((FFNetwork.new c2Nodes c2Edges).bind
        (fun net => (net.forward [1/10, 1/2]).map (fun r => r.1))) =
      some (some [3/20, 3/20, 3/20, 3/20]) := by
  have heval : ((FFNetwork.new c2Nodes c2Edges).bind
      (fun net => (net.forward [1/10, 1/2]).map (fun r => r.1))) =
      some (some [c2OutVal, c2OutVal, c2OutVal, c2OutVal]) := rfl
  rw [heval, c2OutVal_eq]

end Neat
